import Mathlib

/-!
Verification of the command-rewriting core of the hub repository: the
ArgumentList model, the remote-target rewrite rule (remote add / set-url)
and the web-URL-to-local-patch rewrite rule (apply), embedded from the
Go sources in src/unnamed/part_000 and src/unnamed/part_001.
-/

namespace Hub

/-- A queued prerequisite command: executable name plus its argument list. -/
structure Cmd where
  exe : String
  cargs : List String
deriving DecidableEq

/-- Modelled from the spec: the ArgumentList of one invocation (spec section 3)
with its distinguished subcommand name, ordered positional parameters, and the
queue of prerequisite commands inserted by a rewrite rule.  The Args type
itself is absent from the sources; its operations below follow spec
section 4.1 and the way the two rules in the sources call them. -/
structure Args where
  command : String
  params : List String
  beforeChain : List Cmd
deriving DecidableEq

/-- Anchored-prefix test on the underlying character data: the embedding of
a Go regular-expression match anchored with a caret at a literal prefix. -/
def strStarts (s pre : String) : Bool := pre.data.isPrefixOf s.data

/-- Character-level lowercasing — the embedding of the Go strings package
lowercasing used by the case-insensitive owner comparison in part_000. -/
def strLower (s : String) : String := ⟨s.data.map Char.toLower⟩

/-- First index of a parameter satisfying the predicate. -/
def firstIdx (p : String → Bool) : List String → Option Nat
  | [] => none
  | x :: xs => if p x then some 0 else (firstIdx p xs).map (fun i => i + 1)

/-- Modelled from the spec: number of positional parameters. -/
def Args.paramsSize (a : Args) : Nat := a.params.length

/-- Modelled from the spec: true iff no positional parameters remain. -/
def Args.isParamsEmpty (a : Args) : Bool := a.params.isEmpty

/-- Modelled from the spec: first positional parameter, or the empty string
when none exist (never panics on empty input, spec section 4.1). -/
def Args.firstParam (a : Args) : String := a.params.headD ""

/-- Modelled from the spec: last positional parameter, or the empty string
when none exist. -/
def Args.lastParam (a : Args) : String := a.params.getLastD ""

/-- Modelled from the spec: current position of a parameter equal to the
value, or not-found. -/
def Args.indexOfParam (a : Args) (v : String) : Option Nat :=
  firstIdx (fun p => p == v) a.params

/-- Modelled from the spec: replace the parameter at the index. -/
def Args.replaceParam (a : Args) (i : Nat) (v : String) : Args :=
  { a with params := a.params.set i v }

/-- Modelled from the spec: remove the parameter at the index. -/
def Args.removeParam (a : Args) (i : Nat) : Args :=
  { a with params := a.params.eraseIdx i }

/-- Modelled from the spec: append tokens at the end of the parameters. -/
def Args.appendParams (a : Args) (vs : List String) : Args :=
  { a with params := a.params ++ vs }

/-- Modelled from the spec: append a fully independent prerequisite command
to the queue, to run strictly before the main command; insertion order is
preserved (spec section 4.1). -/
def Args.before (a : Args) (exe : String) (cs : List String) : Args :=
  { a with beforeChain := a.beforeChain ++ [⟨exe, cs⟩] }

/-- Modelled from the spec: the tokens the user wrote (spec section 4.3
steps 4 and 5) — the positional parameters that are not dash-prefixed
flags. -/
def Args.words (a : Args) : List String :=
  a.params.filter (fun p => !(strStarts p "-"))

/-- Modelled from the spec: result of the remote-target configuration
collaborator, spec section 6: the default host and the authenticated user. -/
structure HostConfig where
  host : String
  user : String
deriving DecidableEq

/-- A resolved GitHub-style remote target (owner, name, host). -/
structure Project where
  owner : String
  name : String
  host : String
deriving DecidableEq

/-- Modelled from the spec: the read-only per-invocation Context, spec
sections 3 and 6: whether the local-repository metadata collaborator loads,
the current local project when resolvable, the working-directory-derived
repository name fallback, and the default host configuration (none encodes
the fatal configuration error of spec section 7). -/
structure Context where
  localRepoOk : Bool
  mainProject : Option Project
  rootDirName : Option String
  defaultHost : Option HostConfig
deriving DecidableEq

/-- The default public GitHub host constant compared against in part_000. -/
def GitHubHost : String := "github.com"

/-- Modelled from the spec: Project construction; an empty host resolves to
the default public host (spec sections 3 and 4.3). -/
def newProject (owner name host : String) : Project :=
  ⟨owner, name, if host = "" then GitHubHost else host⟩

/-- Modelled from the spec: canonical remote URL construction, spec section
4.3 step 7 — public visibility gives the read-only git scheme, private
visibility the owner-scoped push-capable scheme (formats as in the usage
examples of part_000). -/
def Project.gitURL (p : Project) (name owner : String) (isPrivate : Bool) : String :=
  let n := if name = "" then p.name else name
  let o := if owner = "" then p.owner else owner
  if isPrivate then "git@" ++ p.host ++ ":" ++ o ++ "/" ++ n ++ ".git"
  else "git://" ++ p.host ++ "/" ++ o ++ "/" ++ n ++ ".git"

/-- Modelled from the spec: the owner-name character class of the two
grammars of spec section 4.3 step 1 (the OwnerRe constant is absent from
the sources): alphanumeric or hyphen. -/
def isOwnerChar (c : Char) : Bool := c.isAlphanum || c = '-'

/-- An owner token: nonempty, alphanumeric first character, then
owner characters. -/
def isOwnerL : List Char → Bool
  | [] => false
  | c :: cs => c.isAlphanum && cs.all isOwnerChar

/-- Modelled from the spec: the repository-name character class (the NameRe
constant is absent from the sources): word characters, dot or hyphen. -/
def isNameChar (c : Char) : Bool := c.isAlphanum || c = '_' || c = '.' || c = '-'

/-- A repository-name token: nonempty run of name characters. -/
def isNameL (l : List Char) : Bool := !l.isEmpty && l.all isNameChar

/-- Split a character list at its first slash, when one exists. -/
def nameOwnerSplit : List Char → Option (List Char × List Char)
  | [] => none
  | c :: rest =>
    if c = '/' then some ([], rest)
    else (nameOwnerSplit rest).map (fun pr => (c :: pr.1, pr.2))

/-- The parseRepoNameOwner function of part_000: try the anchored bare-owner
grammar, then the anchored owner-slash-name grammar; on no match both
results are empty.  Since neither character class admits a slash, the
anchored two-part grammar matches exactly when the text splits at its
first slash into an owner token and a name token. -/
def parseRepoNameOwner (s : String) : String × String :=
  if isOwnerL s.data then (s, "")
  else
    match nameOwnerSplit s.data with
    | some (o, n) => if isOwnerL o && isNameL n then (⟨o⟩, ⟨n⟩) else ("", "")
    | none => ("", "")

/-- The parseRemotePrivateFlag function of part_000: detect an explicit
dash-p parameter, removing it when present. -/
def parseRemotePrivateFlag (a : Args) : Bool × Args :=
  match a.indexOfParam "-p" with
  | some i => (true, a.removeParam i)
  | none => (false, a)

/-- Failure modes of the remote rule (the checks that abort in part_000). -/
inductive RemoteError where
  | localRepoError
  | rootDirError
  | configError
deriving DecidableEq

deriving instance DecidableEq for Except

/-- The repository-name and host resolution of part_000 lines 65 to 77:
when no explicit name was given, prefer the current local project,
otherwise fall back to the working-directory base name; returns the name,
the resolved repoName variable and the host variable. -/
def resolveRepoHost (ctx : Context) (name0 : String) :
    Except RemoteError (String × String × String) :=
  if name0 = "" then
    match ctx.mainProject with
    | some project => .ok (project.name, project.name, project.host)
    | none =>
      match ctx.rootDirName with
      | some d => .ok (d, d, "")
      | none => .error .rootDirError
  else .ok (name0, "", "")

/-- The transformRemoteArgs function of part_000, with the Go control flow
written as explicit state passing: parse the trailing parameter, resolve
name and host, resolve the default host configuration, take the words
before stripping the dash-p flag, branch on the two-word origin special
case / two-word in-place replacement / trailing-parameter removal,
normalize the owner against the authenticated user, derive the final
visibility and append the constructed URL. -/
def transformRemoteArgs (ctx : Context) (a : Args) : Except RemoteError Args :=
  let pr := parseRepoNameOwner a.lastParam
  if pr.1 = "" then .ok a
  else if !ctx.localRepoOk then .error .localRepoError
  else
    match resolveRepoHost ctx pr.2 with
    | .error e => .error e
    | .ok (name1, repoName, host) =>
      match ctx.defaultHost with
      | none => .error .configError
      | some hostConfig =>
        let words := a.words
        let fp := parseRemotePrivateFlag a
        let isPrivate0 := fp.1
        let a1 := fp.2
        let step :=
          if words.length = 2 ∧ words.getD 1 "" = "origin" then
            (hostConfig.user, repoName, a1)
          else if words.length = 2 then
            match a1.indexOfParam (words.getD 1 "") with
            | some idx => (pr.1, name1, a1.replaceParam idx pr.1)
            | none => (pr.1, name1, a1)
          else (pr.1, name1, a1.removeParam (a1.paramsSize - 1))
        let owner1 := step.1
        let name2 := step.2.1
        let a2 := step.2.2
        let norm :=
          if strLower owner1 = strLower hostConfig.user then (hostConfig.user, true)
          else (owner1, isPrivate0)
        let owner2 := norm.1
        let isPrivate1 := norm.2
        let project := newProject owner2 name2 host
        let isPrivate2 := isPrivate1 || decide (project.host ≠ GitHubHost)
        let url := project.gitURL name2 owner2 isPrivate2
        .ok (a2.appendParams [url])

/-- The remote entry point of part_000: dispatch to the transformation only
when parameters exist and the first one is the add or set-url sub-key. -/
def remote (ctx : Context) (a : Args) : Except RemoteError Args :=
  if !a.isParamsEmpty && (a.firstParam == "add" || a.firstParam == "set-url") then
    transformRemoteArgs ctx a
  else .ok a

/-- The anchored URL pattern of part_001: an http or https scheme on the
main github.com host or the gist.github.com subdomain; the result carries
whether the gist subdomain matched. -/
def urlMatch (s : String) : Option Bool :=
  if strStarts s "https://gist.github.com/" || strStarts s "http://gist.github.com/" then some true
  else if strStarts s "https://github.com/" || strStarts s "http://github.com/" then some false
  else none

/-- Removal of every document-fragment match (a hash followed by at least
one character up to a newline or the end) from the character data — the
fragment regular expression of part_001 applied with replace-all.  The
Boolean state is true while inside a match being dropped. -/
def stripFragAux : Bool → List Char → List Char
  | _, [] => []
  | true, c :: rest =>
    if c = '\n' then c :: stripFragAux false rest else stripFragAux true rest
  | false, c :: rest =>
    if c = '#' then
      match rest with
      | [] => ['#']
      | d :: _ => if d = '\n' then c :: stripFragAux false rest else stripFragAux true rest
    else c :: stripFragAux false rest

/-- Strip document fragments from a URL (part_001 lines 53 to 54). -/
def stripFragment (s : String) : String := ⟨stripFragAux false s.data⟩

/-- A word character of the Go regular-expression class backslash-w. -/
def isWordChar (c : Char) : Bool := c.isAlphanum || c = '_'

/-- After a slash-pull-slash prefix: one or more digits (taken greedily),
a slash, then word characters running to the end of the text; returns the
digits. -/
def pullTail (l : List Char) : Option (List Char) :=
  let digits := l.takeWhile Char.isDigit
  match l.dropWhile Char.isDigit with
  | [] => none
  | c :: w => if c = '/' ∧ digits ≠ [] ∧ w.all isWordChar = true then some digits else none

/-- Match attempt of the pull-request suffix pattern of part_001 at the head
of the text: slash pull slash, digits, slash, word characters to the end;
returns the collapsed replacement (the slash-pull-slash-digits group). -/
def matchAt (l : List Char) : Option (List Char) :=
  if l.take 6 = ['/', 'p', 'u', 'l', 'l', '/'] then
    (pullTail (l.drop 6)).map (fun ds => '/' :: 'p' :: 'u' :: 'l' :: 'l' :: '/' :: ds)
  else none

/-- Leftmost application of the pull-request suffix pattern: the whole text
with the matched suffix collapsed, or none when no position matches. -/
def pullScan : List Char → Option (List Char)
  | [] => none
  | c :: rest =>
    match matchAt (c :: rest) with
    | some collapsed => some collapsed
    | none => (pullScan rest).map (fun r => c :: r)

/-- Collapse a pull-request sub-path suffix down to its parent resource
path (part_001 lines 55 to 61); since the pattern is anchored at the end of
the text it has at most one match, so replace-all replaces exactly the
leftmost match with its first group. -/
def pullReplace (s : String) : String :=
  match pullScan s.data with
  | some l => ⟨l⟩
  | none => s

/-- The file-name extension in the manner of the Go path library: the
suffix from the final dot of the final slash-separated element, scanning
the reversed character data. -/
def fileExtAux : List Char → List Char → List Char
  | [], _ => []
  | c :: rest, acc =>
    if c = '/' then [] else if c = '.' then '.' :: acc else fileExtAux rest (c :: acc)

/-- Extension of a path (Go filepath dot Ext). -/
def fileExt (s : String) : String := ⟨fileExtAux s.data.reverse []⟩

/-- Remove trailing slashes from character data. -/
def dropTrailingSlashes (l : List Char) : List Char :=
  (l.reverse.dropWhile (fun c => c = '/')).reverse

/-- The final slash-separated component of character data. -/
def lastComponent (l : List Char) : List Char :=
  (l.reverse.takeWhile (fun c => !(c = '/'))).reverse

/-- Base name of a path (Go filepath dot Base): the final element after
removing trailing slashes, with the documented degenerate results. -/
def fileBase (s : String) : String :=
  if s = "" then "."
  else
    let l := dropTrailingSlashes s.data
    let b := lastComponent l
    if b.isEmpty then "/" else ⟨b⟩

/-- Modelled from the spec: the system temp directory of spec section 4.4
step 5 (the Go call reads the environment, which the shallow embedding
fixes to the conventional location). -/
def tempDir : String := "/tmp"

/-- Modelled from the spec: the version carried in the fixed, versioned
user-agent string of spec section 4.4 step 6; the Version constant is
absent from the sources and its value does not enter any rewrite rule
decision. -/
def version : String := "1.0.0"

/-- The transformApplyArgs function of part_001: find the first positional
parameter matching the URL pattern; detect the gist subdomain; strip the
fragment; for non-gist URLs collapse the pull-request suffix; append the
selected extension unless already present; build the deterministic temp
path from the optional prefix and the final path segment; enqueue the
prerequisite fetch; replace the parameter in place; stop after the first
match. -/
def transformApplyArgs (a : Args) : Args :=
  match a.params.find? (fun p => (urlMatch p).isSome) with
  | none => a
  | some url =>
    let idx := (a.indexOfParam url).getD 0
    let gist := (urlMatch url).getD false
    let url1 := stripFragment url
    let url2 := if gist then url1 else pullReplace url1
    let ext := if gist then ".txt" else ".patch"
    let url3 := if !(fileExt url2 == ext) then url2 ++ ext else url2
    let pfx := if gist then "gist-" else ""
    let patchFile := tempDir ++ "/" ++ pfx ++ fileBase url3
    let a1 := a.before "curl" ["-#LA", "gh " ++ version, url3, "-o", patchFile]
    { a1 with params := a1.params.set idx patchFile }

/-- The apply entry point of part_001: dispatch to the transformation only
when positional parameters exist. -/
def apply (a : Args) : Args :=
  if !a.isParamsEmpty then transformApplyArgs a else a

end Hub

open Hub

/-! Basic bridging lemmas between strings and their character data. -/

theorem strMk_data (l : List Char) : (⟨l⟩ : String).data = l := rfl

theorem strMk_eq {l : List Char} {s : String} (h : l = s.data) : (⟨l⟩ : String) = s := by
  cases s
  cases h
  rfl

theorem str_ne_of_data {s : String} (h : s.data ≠ []) : s ≠ "" := by
  intro he
  rw [he] at h
  exact h rfl

/-! Lemmas on the grammar predicates. -/

theorem ownerL_parse {s : String} (h : isOwnerL s.data = true) :
    parseRepoNameOwner s = (s, "") := by
  unfold parseRepoNameOwner
  rw [h]
  simp

theorem ownerL_ne_empty {s : String} (h : isOwnerL s.data = true) : s ≠ "" := by
  apply str_ne_of_data
  intro he
  rw [he] at h
  simp [isOwnerL] at h

theorem ownerL_head_alnum {c : Char} {cs : List Char} (h : isOwnerL (c :: cs) = true) :
    c.isAlphanum = true := by
  have h' : (c.isAlphanum && cs.all isOwnerChar) = true := h
  rw [Bool.and_eq_true] at h'
  exact h'.1

theorem ownerL_mem {l : List Char} (h : isOwnerL l = true) {c : Char} (hc : c ∈ l) :
    isOwnerChar c = true := by
  cases l with
  | nil => simp at hc
  | cons x xs =>
    have h' : (x.isAlphanum && xs.all isOwnerChar) = true := h
    rw [Bool.and_eq_true] at h'
    rcases h' with ⟨h1, h2⟩
    rcases List.mem_cons.1 hc with rfl | hm
    · simp [isOwnerChar, h1]
    · exact (List.all_eq_true.mp h2) c hm

theorem nameL_mem {l : List Char} (h : isNameL l = true) {c : Char} (hc : c ∈ l) :
    isNameChar c = true := by
  have h' : (!l.isEmpty && l.all isNameChar) = true := h
  rw [Bool.and_eq_true] at h'
  exact (List.all_eq_true.mp h'.2) c hc

theorem ownerL_false_of_bad {l : List Char} {c : Char} (hc : c ∈ l)
    (hb : isOwnerChar c = false) : isOwnerL l = false := by
  cases h : isOwnerL l
  · rfl
  · exfalso
    have := ownerL_mem h hc
    rw [this] at hb
    exact Bool.noConfusion hb

theorem nameL_false_of_bad {l : List Char} {c : Char} (hc : c ∈ l)
    (hb : isNameChar c = false) : isNameL l = false := by
  cases h : isNameL l
  · rfl
  · exfalso
    have := nameL_mem h hc
    rw [this] at hb
    exact Bool.noConfusion hb

theorem ownerL_no_dash_start {s : String} (h : isOwnerL s.data = true) :
    strStarts s "-" = false := by
  unfold strStarts
  cases hd : s.data with
  | nil => rw [hd] at h; exact absurd h (by decide)
  | cons c cs =>
    rw [hd] at h
    have hc : c.isAlphanum = true := ownerL_head_alnum h
    have hne : ('-' == c) = false := by
      cases he : ('-' == c)
      · rfl
      · exfalso
        have hce : c = '-' := (beq_iff_eq.mp he).symm
        rw [hce] at hc
        exact absurd hc (by decide)
    show ("-".data.isPrefixOf (c :: cs)) = false
    rw [show ("-".data : List Char) = ['-'] from rfl]
    simp [List.isPrefixOf, hne]

theorem ownerChar_ne_slash {c : Char} (h : isOwnerChar c = true) : c ≠ '/' := by
  intro he
  rw [he] at h
  exact absurd h (by decide)

theorem nameChar_ne_slash {c : Char} (h : isNameChar c = true) : c ≠ '/' := by
  intro he
  rw [he] at h
  exact absurd h (by decide)

/-! The split on the first slash, on data of the owner-slash-name form. -/

theorem nameOwnerSplit_append {o : List Char} (n : List Char)
    (ho : ∀ c ∈ o, c ≠ '/') :
    nameOwnerSplit (o ++ '/' :: n) = some (o, n) := by
  induction o with
  | nil => simp [nameOwnerSplit]
  | cons c cs ih =>
    have hc : c ≠ '/' := ho c (by simp)
    have ih' := ih (fun x hx => ho x (by simp [hx]))
    show nameOwnerSplit (c :: (cs ++ '/' :: n)) = some (c :: cs, n)
    simp only [nameOwnerSplit, if_neg hc]
    rw [ih']
    rfl

theorem nameOwnerSplit_parts {l o n : List Char} (h : nameOwnerSplit l = some (o, n)) :
    l = o ++ '/' :: n := by
  induction l generalizing o n with
  | nil => simp [nameOwnerSplit] at h
  | cons c cs ih =>
    by_cases hc : c = '/'
    · subst hc
      simp [nameOwnerSplit] at h
      rw [h.1, ← h.2]
      simp
    · simp only [nameOwnerSplit, if_neg hc] at h
      cases hs : nameOwnerSplit cs with
      | none => rw [hs] at h; simp at h
      | some pr =>
        rw [hs] at h
        rcases pr with ⟨po, pn⟩
        simp at h
        have := ih hs
        rw [← h.1, ← h.2]
        simp [this]

theorem ownername_parse {o n : String} (ho : isOwnerL o.data = true)
    (hn : isNameL n.data = true) :
    parseRepoNameOwner (o ++ "/" ++ n) = (o, n) := by
  have hdata : (o ++ "/" ++ n).data = o.data ++ '/' :: n.data := by
    rw [String.data_append, String.data_append,
      show ("/".data : List Char) = ['/'] from rfl]
    simp
  have hnoslash : ∀ c ∈ o.data, c ≠ '/' := fun c hc =>
    ownerChar_ne_slash (ownerL_mem ho hc)
  unfold parseRepoNameOwner
  rw [hdata]
  have hbad : isOwnerL (o.data ++ '/' :: n.data) = false :=
    ownerL_false_of_bad (c := '/') (by simp) (by decide)
  rw [hbad]
  simp only [Bool.false_eq_true, if_false]
  rw [nameOwnerSplit_append n.data hnoslash]
  simp [ho, hn]

/-! Failure of both grammars on any text containing a character that is
outside both character classes and is not the separator slash. -/

theorem parse_none_of_badchar {s : String} {c : Char} (hc : c ∈ s.data)
    (h1 : isOwnerChar c = false) (h2 : isNameChar c = false) (h3 : c ≠ '/') :
    parseRepoNameOwner s = ("", "") := by
  unfold parseRepoNameOwner
  rw [ownerL_false_of_bad hc h1]
  simp only [Bool.false_eq_true, if_false]
  cases hs : nameOwnerSplit s.data with
  | none => rfl
  | some pr =>
    rcases pr with ⟨o, n⟩
    have hparts := nameOwnerSplit_parts hs
    rw [hparts] at hc
    rcases List.mem_append.1 hc with hmo | hmn
    · simp [ownerL_false_of_bad hmo h1]
    · rcases List.mem_cons.1 hmn with rfl | hmn2
      · exact absurd rfl h3
      · simp [nameL_false_of_bad hmn2 h2]

/-- Claim C1: an invocation matched by no rule — remote with empty
parameters or a first parameter that is neither add nor set-url, remote
whose trailing parameter matches neither grammar, and apply with no
parameter matching the URL pattern — passes through with its argument list
identical to the input and nothing enqueued. -/
theorem c1_passthrough :
    (∀ (ctx : Context) (a : Args),
      a.isParamsEmpty = true ∨ (a.firstParam ≠ "add" ∧ a.firstParam ≠ "set-url") →
      remote ctx a = .ok a) ∧
    (∀ (ctx : Context) (a : Args),
      (parseRepoNameOwner a.lastParam).1 = "" → remote ctx a = .ok a) ∧
    (∀ a : Args, (∀ p ∈ a.params, urlMatch p = none) → Hub.apply a = a) := by
  refine ⟨?_, ?_, ?_⟩
  · intro ctx a h
    unfold remote
    rcases h with h | ⟨h1, h2⟩
    · rw [h]
      simp
    · have e1 : (a.firstParam == "add") = false := by simp [h1]
      have e2 : (a.firstParam == "set-url") = false := by simp [h2]
      rw [e1, e2]
      simp
  · intro ctx a h
    by_cases hc : (!a.isParamsEmpty && (a.firstParam == "add" || a.firstParam == "set-url")) = true
    · simp [remote, transformRemoteArgs, hc, h]
    · rw [Bool.not_eq_true] at hc
      simp [remote, hc]
  · intro a h
    have hfind : a.params.find? (fun p => (urlMatch p).isSome) = none := by
      rw [List.find?_eq_none]
      intro x hx
      rw [h x hx]
      simp
    unfold Hub.apply
    by_cases he : a.isParamsEmpty = true
    · rw [he]
      simp
    · rw [Bool.not_eq_true] at he
      rw [he]
      simp only [Bool.not_false, if_true]
      unfold transformApplyArgs
      rw [hfind]

/-- Witness for claim C1 at concrete unmatched invocations. -/
theorem c1_passthrough_w :
    remote ⟨false, none, none, none⟩ ⟨"remote", ["status"], []⟩ =
      .ok ⟨"remote", ["status"], []⟩ ∧
    remote ⟨false, none, none, none⟩ ⟨"remote", ["add", "git://github.com/a/b.git"], []⟩ =
      .ok ⟨"remote", ["add", "git://github.com/a/b.git"], []⟩ ∧
    Hub.apply ⟨"apply", ["/tmp/55.patch"], []⟩ = ⟨"apply", ["/tmp/55.patch"], []⟩ :=
  ⟨c1_passthrough.1 _ _ (Or.inr (by decide)),
   c1_passthrough.2.1 _ _ (by decide),
   c1_passthrough.2.2 _ (by decide)⟩

/-- Claim C8: when the default host configuration cannot be resolved and
the remote rule otherwise applies (parameters exist, the sub-key matches
and the trailing parameter parses), the pipeline aborts with an error
result — in this pure embedding the error value replaces the argument
list outright, so no parameter mutation and no enqueued prerequisite can
be observed. -/
theorem c8_config_error (ctx : Context) (a : Args)
    (hcfg : ctx.defaultHost = none)
    (hne : a.isParamsEmpty = false)
    (hfp : a.firstParam = "add" ∨ a.firstParam = "set-url")
    (hpr : (parseRepoNameOwner a.lastParam).1 ≠ "") :
    ∃ e, remote ctx a = .error e := by
  have hfp2 : (a.firstParam == "add" || a.firstParam == "set-url") = true := by
    rcases hfp with h | h <;> simp [h]
  cases hlr : ctx.localRepoOk with
  | false =>
    exact ⟨.localRepoError, by simp [remote, transformRemoteArgs, hne, hfp2, hpr, hlr]⟩
  | true =>
    cases hres : resolveRepoHost ctx (parseRepoNameOwner a.lastParam).2 with
    | error e =>
      exact ⟨e, by simp [remote, transformRemoteArgs, hne, hfp2, hpr, hlr, hres]⟩
    | ok v =>
      rcases v with ⟨n1, rn, hh⟩
      exact ⟨.configError, by simp [remote, transformRemoteArgs, hne, hfp2, hpr, hlr, hres, hcfg]⟩

/-- Witness for claim C8 at a concrete invocation with unresolvable
configuration. -/
theorem c8_config_error_w :
    ∃ e, remote ⟨true, some ⟨"o", "r", "github.com"⟩, some "d", none⟩
      ⟨"remote", ["add", "jingweno"], []⟩ = .error e :=
  c8_config_error _ _ rfl rfl (Or.inl rfl) (by decide)

/-- Counterexample for claim C2: in the invocation remote add origin foo,
the literal origin follows the sub-key yet the substitution does not
apply — the code parses the trailing parameter foo as the owner, removes
it, and appends a URL owned by foo, not by the authenticated user alice
(under either URL scheme). -/
theorem c2_counterexample :
    remote ⟨true, some ⟨"me", "repo", "github.com"⟩, some "dir", some ⟨"github.com", "alice"⟩⟩
        ⟨"remote", ["add", "origin", "foo"], []⟩ =
      .ok ⟨"remote", ["add", "origin", "git://github.com/foo/repo.git"], []⟩ ∧
    (newProject "alice" "repo" "github.com").gitURL "repo" "alice" true ≠
      "git://github.com/foo/repo.git" ∧
    (newProject "alice" "repo" "github.com").gitURL "repo" "alice" false ≠
      "git://github.com/foo/repo.git" := by
  refine ⟨by decide, by decide, by decide⟩

/-- Counterexample for claim C3: for remote add origin with no dash-p flag,
owner parsed as origin (not case-insensitively equal to the authenticated
user alice) and the default public host, the claimed visibility formula is
false on all three disjuncts, yet the appended URL uses the private
owner-scoped scheme. -/
theorem c3_counterexample :
    remote ⟨true, some ⟨"me", "repo", "github.com"⟩, some "dir", some ⟨"github.com", "alice"⟩⟩
        ⟨"remote", ["add", "origin"], []⟩ =
      .ok ⟨"remote", ["add", "origin", "git@github.com:alice/repo.git"], []⟩ ∧
    strLower (parseRepoNameOwner "origin").1 ≠ strLower "alice" ∧
    (Args.mk "remote" ["add", "origin"] []).indexOfParam "-p" = none ∧
    (newProject "origin" "repo" "github.com").host = GitHubHost ∧
    (newProject "alice" "repo" "github.com").gitURL "repo" "alice" true =
      "git@github.com:alice/repo.git" := by
  refine ⟨by decide, by decide, by decide, by decide, by decide⟩

/-- Counterexample for claim C5: remote add jingweno with current repo
name repo produces the three-token parameter list add jingweno URL — the
bare-owner token is kept in place ahead of the appended URL — and not the
claimed two-token list add URL. -/
theorem c5_counterexample :
    remote ⟨true, some ⟨"me", "repo", "github.com"⟩, some "dir", some ⟨"github.com", "alice"⟩⟩
        ⟨"remote", ["add", "jingweno"], []⟩ =
      .ok ⟨"remote", ["add", "jingweno", "git://github.com/jingweno/repo.git"], []⟩ ∧
    (Args.mk "remote" ["add", "jingweno", "git://github.com/jingweno/repo.git"] []).params ≠
      ["add", "git://github.com/jingweno/repo.git"] := by
  refine ⟨by decide, by decide⟩

/-- Counterexample for claim C6: remote add foo/bar does not leave the
non-URL parameter tokens unaltered — the owner-slash-name token foo/bar
is replaced in place by the bare owner foo before the URL is appended. -/
theorem c6_counterexample :
    remote ⟨true, some ⟨"me", "repo", "github.com"⟩, some "dir", some ⟨"github.com", "alice"⟩⟩
        ⟨"remote", ["add", "foo/bar"], []⟩ =
      .ok ⟨"remote", ["add", "foo", "git://github.com/foo/bar.git"], []⟩ ∧
    (Args.mk "remote" ["add", "foo", "git://github.com/foo/bar.git"] []).params.get? 1 ≠
      some "foo/bar" := by
  refine ⟨by decide, by decide⟩

/-- Counterexample for claim C7: with two URL-matching parameters, the
argument list produced by one run of the apply rule is rewritten again by
a second run — the second URL still matches, so the second run is not a
no-op and enqueues a second prerequisite. -/
theorem c7_counterexample :
    Hub.apply (Hub.apply ⟨"apply",
        ["https://github.com/a/b/pull/1/files", "https://github.com/a/b/pull/2/files"], []⟩) ≠
      Hub.apply ⟨"apply",
        ["https://github.com/a/b/pull/1/files", "https://github.com/a/b/pull/2/files"], []⟩ ∧
    (Hub.apply ⟨"apply",
        ["https://github.com/a/b/pull/1/files", "https://github.com/a/b/pull/2/files"], []⟩).beforeChain.length = 1 ∧
    (Hub.apply (Hub.apply ⟨"apply",
        ["https://github.com/a/b/pull/1/files", "https://github.com/a/b/pull/2/files"], []⟩)).beforeChain.length = 2 := by
  refine ⟨by decide, by decide, by decide⟩

/-! Evaluation of the remote rule on the canonical two-word bare-owner
invocation shapes, with an optional explicit dash-p flag. -/

theorem remote_eval_bare (cmd sub NAME user R H hh : String) (wp : Bool) (ctx : Context)
    (ch : List Cmd)
    (hsub : sub = "add" ∨ sub = "set-url")
    (hN : isOwnerL NAME.data = true)
    (hlr : ctx.localRepoOk = true)
    (hres : resolveRepoHost ctx "" = .ok (R, R, H))
    (hcfg : ctx.defaultHost = some ⟨hh, user⟩) :
    remote ctx ⟨cmd, sub :: (if wp then ["-p", NAME] else [NAME]), ch⟩ =
      .ok ⟨cmd, [sub, NAME,
        Project.gitURL
          (newProject
            (if strLower (if NAME = "origin" then user else NAME) = strLower user then user
             else if NAME = "origin" then user else NAME) R H)
          R
          (if strLower (if NAME = "origin" then user else NAME) = strLower user then user
           else if NAME = "origin" then user else NAME)
          ((if strLower (if NAME = "origin" then user else NAME) = strLower user then true
            else wp) ||
            decide ((newProject
              (if strLower (if NAME = "origin" then user else NAME) = strLower user then user
               else if NAME = "origin" then user else NAME) R H).host ≠ GitHubHost))], ch⟩ := by
  have hdash : strStarts NAME "-" = false := ownerL_no_dash_start hN
  have hne : NAME ≠ "" := ownerL_ne_empty hN
  have hnp : (NAME == "-p") = false := by
    have h2 : NAME ≠ "-p" := by
      intro he
      rw [he] at hN
      exact absurd hN (by decide)
    simp [h2]
  have hsubdash : strStarts sub "-" = false := by rcases hsub with rfl | rfl <;> decide
  have hsubp : (sub == "-p") = false := by rcases hsub with rfl | rfl <;> decide
  have hsubkey : (sub == "add" || sub == "set-url") = true := by
    rcases hsub with rfl | rfl <;> simp
  have hparse : parseRepoNameOwner NAME = (NAME, "") := ownerL_parse hN
  have hpdash : strStarts "-p" "-" = true := by decide
  by_cases ho : NAME = "origin"
  · subst ho
    cases wp <;>
      simp [remote, transformRemoteArgs, Args.isParamsEmpty, Args.firstParam, Args.lastParam,
        Args.words, Args.indexOfParam, Args.paramsSize, Args.removeParam, Args.replaceParam,
        Args.appendParams, parseRemotePrivateFlag, firstIdx, hsubkey, hsubdash, hsubp,
        hparse, hne, hlr, hres, hcfg, hdash, hnp, hpdash]
  · by_cases hs : sub = NAME
    · have hkey2 : (NAME == "add" || NAME == "set-url") = true := by
        rw [← hs]
        exact hsubkey
      by_cases hci : strLower NAME = strLower user <;> cases wp <;>
        simp [remote, transformRemoteArgs, Args.isParamsEmpty, Args.firstParam, Args.lastParam,
          Args.words, Args.indexOfParam, Args.paramsSize, Args.removeParam, Args.replaceParam,
          Args.appendParams, parseRemotePrivateFlag, firstIdx, hkey2, hsubdash, hsubp,
          hparse, hne, hlr, hres, hcfg, hdash, hnp, ho, hci, hs, hpdash]
    · by_cases hci : strLower NAME = strLower user <;> cases wp <;>
        simp [remote, transformRemoteArgs, Args.isParamsEmpty, Args.firstParam, Args.lastParam,
          Args.words, Args.indexOfParam, Args.paramsSize, Args.removeParam, Args.replaceParam,
          Args.appendParams, parseRemotePrivateFlag, firstIdx, hsubkey, hsubdash, hsubp,
          hparse, hne, hlr, hres, hcfg, hdash, hnp, ho, hci, hs, hpdash]

theorem strData_slash (o n : String) : (o ++ "/" ++ n).data = o.data ++ '/' :: n.data := by
  rw [String.data_append, String.data_append, show ("/".data : List Char) = ['/'] from rfl]
  simp

theorem nameL_ne_nil {l : List Char} (h : isNameL l = true) : l ≠ [] := by
  intro he
  rw [he] at h
  exact absurd h (by decide)

theorem dash_start_false_of_alnum {s : String} {c : Char} {cs : List Char}
    (hd : s.data = c :: cs) (hc : c.isAlphanum = true) : strStarts s "-" = false := by
  unfold strStarts
  rw [hd, show ("-".data : List Char) = ['-'] from rfl]
  have hne : ('-' == c) = false := by
    cases he : ('-' == c)
    · rfl
    · exfalso
      have hce : c = '-' := (beq_iff_eq.mp he).symm
      rw [hce] at hc
      exact absurd hc (by decide)
  simp [List.isPrefixOf, hne]

/-- Claim C2 (amended): the origin substitution — owner forced to the
authenticated user, name to the resolved repository name, private URL
scheme — applies when the invocation has exactly the two non-flag tokens
sub-key and the literal origin; with further tokens present the trailing
token is parsed as the owner instead (see the counterexample). -/
theorem c2_origin_substitution (cmd sub user R H hh : String) (ctx : Context) (ch : List Cmd)
    (hsub : sub = "add" ∨ sub = "set-url")
    (hlr : ctx.localRepoOk = true)
    (hres : resolveRepoHost ctx "" = .ok (R, R, H))
    (hcfg : ctx.defaultHost = some ⟨hh, user⟩) :
    remote ctx ⟨cmd, [sub, "origin"], ch⟩ =
      .ok ⟨cmd, [sub, "origin", Project.gitURL (newProject user R H) R user true], ch⟩ := by
  have h := remote_eval_bare cmd sub "origin" user R H hh false ctx ch hsub (by decide)
    hlr hres hcfg
  simpa using h

/-- Witness for the amended claim C2 at a concrete invocation. -/
theorem c2_origin_substitution_w :
    remote ⟨true, some ⟨"me", "repo", "github.com"⟩, some "dir", some ⟨"github.com", "alice"⟩⟩
        ⟨"remote", ["add", "origin"], []⟩ =
      .ok ⟨"remote", ["add", "origin",
        Project.gitURL (newProject "alice" "repo" "github.com") "repo" "alice" true], []⟩ :=
  c2_origin_substitution "remote" "add" "alice" "repo" "github.com" "github.com"
    (⟨true, some ⟨"me", "repo", "github.com"⟩, some "dir", some ⟨"github.com", "alice"⟩⟩ : Context) []
    (Or.inl rfl) rfl (by decide) rfl

/-- Claim C3 (amended): for a two-word remote invocation with an optional
explicit dash-p flag, the visibility boolean that selects the URL scheme is
true exactly when the dash-p flag was present (and it is removed from the
resulting argument list), or the effective owner — the authenticated user
when the origin substitution fired, the parsed owner otherwise — equals
the authenticated user ignoring case, or the resolved project host differs
from the default public host. -/
theorem c3_visibility (cmd sub X user R H hh : String) (wp : Bool) (ctx : Context)
    (ch : List Cmd)
    (hsub : sub = "add" ∨ sub = "set-url")
    (hX : isOwnerL X.data = true)
    (hlr : ctx.localRepoOk = true)
    (hres : resolveRepoHost ctx "" = .ok (R, R, H))
    (hcfg : ctx.defaultHost = some ⟨hh, user⟩) :
    remote ctx ⟨cmd, sub :: (if wp then ["-p", X] else [X]), ch⟩ =
      .ok ⟨cmd, [sub, X,
        Project.gitURL
          (newProject (if strLower (if X = "origin" then user else X) = strLower user then user
            else if X = "origin" then user else X) R H)
          R
          (if strLower (if X = "origin" then user else X) = strLower user then user
            else if X = "origin" then user else X)
          (wp || decide (strLower (if X = "origin" then user else X) = strLower user) ||
            decide ((newProject
              (if strLower (if X = "origin" then user else X) = strLower user then user
               else if X = "origin" then user else X) R H).host ≠ GitHubHost))], ch⟩ := by
  have h := remote_eval_bare cmd sub X user R H hh wp ctx ch hsub hX hlr hres hcfg
  rw [h]
  by_cases hci : strLower (if X = "origin" then user else X) = strLower user <;>
    simp [hci]

/-- Witness for the amended claim C3 at a concrete invocation carrying the
dash-p flag. -/
theorem c3_visibility_w :
    remote ⟨true, some ⟨"me", "repo", "github.com"⟩, some "dir", some ⟨"github.com", "alice"⟩⟩
        ⟨"remote", ["add", "-p", "jingweno"], []⟩ =
      .ok ⟨"remote", ["add", "jingweno",
        Project.gitURL (newProject "jingweno" "repo" "github.com") "repo" "jingweno"
          (true || decide (strLower "jingweno" = strLower "alice") ||
            decide ((newProject "jingweno" "repo" "github.com").host ≠ GitHubHost))], []⟩ := by
  have h := c3_visibility "remote" "add" "jingweno" "alice" "repo" "github.com" "github.com"
    true (⟨true, some ⟨"me", "repo", "github.com"⟩, some "dir", some ⟨"github.com", "alice"⟩⟩ : Context) [] (Or.inl rfl) (by decide) rfl (by decide) rfl
  simpa using h

/-- Claim C5 (amended): remote add NAME with a bare owner other than
origin, resolved repository name R on the default public host and no
explicit flags yields the parameter list sub-key, NAME, URL — the bare
owner token stays in place and the URL is appended after it — where the
URL encodes owner NAME and name R, in the public read-only scheme unless
NAME equals the authenticated user ignoring case (then the owner-scoped
push scheme with the user's stored casing). -/
theorem c5_remote_add_bare (cmd sub NAME user R H hh : String) (ctx : Context) (ch : List Cmd)
    (hsub : sub = "add" ∨ sub = "set-url")
    (hN : isOwnerL NAME.data = true)
    (hNo : NAME ≠ "origin")
    (hlr : ctx.localRepoOk = true)
    (hres : resolveRepoHost ctx "" = .ok (R, R, H))
    (hcfg : ctx.defaultHost = some ⟨hh, user⟩)
    (hH : H = "" ∨ H = GitHubHost) :
    remote ctx ⟨cmd, [sub, NAME], ch⟩ =
      .ok ⟨cmd, [sub, NAME,
        if strLower NAME = strLower user
        then Project.gitURL (newProject user R GitHubHost) R user true
        else Project.gitURL (newProject NAME R GitHubHost) R NAME false], ch⟩ := by
  have h := remote_eval_bare cmd sub NAME user R H hh false ctx ch hsub hN hlr hres hcfg
  have hps : (if false = true then ["-p", NAME] else [NAME]) = [NAME] := by simp
  rw [hps] at h
  rw [h]
  rcases hH with rfl | rfl <;>
    by_cases hci : strLower NAME = strLower user <;>
      simp [hci, hNo, newProject, GitHubHost]

/-- Witness for the amended claim C5 at a concrete invocation. -/
theorem c5_remote_add_bare_w :
    remote ⟨true, some ⟨"me", "repo", "github.com"⟩, some "dir", some ⟨"github.com", "alice"⟩⟩
        ⟨"remote", ["add", "jingweno"], []⟩ =
      .ok ⟨"remote", ["add", "jingweno",
        if strLower "jingweno" = strLower "alice"
        then Project.gitURL (newProject "alice" "repo" GitHubHost) "repo" "alice" true
        else Project.gitURL (newProject "jingweno" "repo" GitHubHost) "repo" "jingweno" false],
        []⟩ :=
  c5_remote_add_bare "remote" "add" "jingweno" "alice" "repo" "github.com" "github.com"
    (⟨true, some ⟨"me", "repo", "github.com"⟩, some "dir", some ⟨"github.com", "alice"⟩⟩ : Context) []
    (Or.inl rfl) (by decide) (by decide) rfl (by decide) rfl (Or.inr rfl)

/-- Claim C10: whenever the parsed owner of a two-word bare-owner remote
invocation equals the authenticated user ignoring case, the owner embedded
in the appended URL is the authenticated user's exact stored casing — not
the casing the user typed (the in-place token keeps the typed casing). -/
theorem c10_owner_casing (cmd sub X user R H hh : String) (ctx : Context) (ch : List Cmd)
    (hsub : sub = "add" ∨ sub = "set-url")
    (hX : isOwnerL X.data = true)
    (hci : strLower X = strLower user)
    (_hdiff : X ≠ user)
    (hlr : ctx.localRepoOk = true)
    (hres : resolveRepoHost ctx "" = .ok (R, R, H))
    (hcfg : ctx.defaultHost = some ⟨hh, user⟩) :
    remote ctx ⟨cmd, [sub, X], ch⟩ =
      .ok ⟨cmd, [sub, X, Project.gitURL (newProject user R H) R user true], ch⟩ := by
  have h := remote_eval_bare cmd sub X user R H hh false ctx ch hsub hX hlr hres hcfg
  have hps : (if false = true then ["-p", X] else [X]) = [X] := by simp
  rw [hps] at h
  rw [h]
  by_cases ho : X = "origin" <;> simp [ho, hci]

/-- Witness for claim C10 at a concrete invocation typed with different
casing than the stored login. -/
theorem c10_owner_casing_w :
    remote ⟨true, some ⟨"me", "repo", "github.com"⟩, some "dir", some ⟨"github.com", "alice"⟩⟩
        ⟨"remote", ["add", "Alice"], []⟩ =
      .ok ⟨"remote", ["add", "Alice",
        Project.gitURL (newProject "alice" "repo" "github.com") "repo" "alice" true], []⟩ :=
  c10_owner_casing "remote" "add" "Alice" "alice" "repo" "github.com" "github.com"
    (⟨true, some ⟨"me", "repo", "github.com"⟩, some "dir", some ⟨"github.com", "alice"⟩⟩ : Context) []
    (Or.inl rfl) (by decide) (by decide) (by decide) rfl (by decide) rfl

/-- Claim C6 (amended): for remote add OWNER/NAME the rewrite applies only
host and visibility substitution to the URL — OWNER and NAME pass through
into the appended URL (OWNER normalized to the stored casing when it
equals the authenticated user ignoring case) — while, contrary to the
unamended claim, the in-place OWNER/NAME token is replaced by the bare
OWNER before the URL is appended. -/
theorem c6_owner_name (cmd sub O N user hh : String) (ctx : Context) (ch : List Cmd)
    (hsub : sub = "add" ∨ sub = "set-url")
    (hO : isOwnerL O.data = true)
    (hN : isNameL N.data = true)
    (hlr : ctx.localRepoOk = true)
    (hcfg : ctx.defaultHost = some ⟨hh, user⟩) :
    remote ctx ⟨cmd, [sub, O ++ "/" ++ N], ch⟩ =
      .ok ⟨cmd, [sub, O,
        if strLower O = strLower user
        then Project.gitURL (newProject user N "") N user true
        else Project.gitURL (newProject O N "") N O false], ch⟩ := by
  have hdata := strData_slash O N
  have hparse := ownername_parse hO hN
  have hNne : N ≠ "" := str_ne_of_data (nameL_ne_nil hN)
  have hres : resolveRepoHost ctx N = .ok (N, "", "") := by simp [resolveRepoHost, hNne]
  have hOne : O ≠ "" := ownerL_ne_empty hO
  have hslash : '/' ∈ (O ++ "/" ++ N).data := by rw [hdata]; simp
  have hXo : O ++ "/" ++ N ≠ "origin" := by
    intro he
    rw [he] at hslash
    exact absurd hslash (by decide)
  have hXp : ((O ++ "/" ++ N) == "-p") = false := by
    have h2 : O ++ "/" ++ N ≠ "-p" := by
      intro he
      rw [he] at hslash
      exact absurd hslash (by decide)
    simp [h2]
  have hXdash : strStarts (O ++ "/" ++ N) "-" = false := by
    cases hd : O.data with
    | nil => rw [hd] at hO; exact absurd hO (by decide)
    | cons c cs =>
      have hget : (O ++ "/" ++ N).data = c :: (cs ++ '/' :: N.data) := by
        rw [hdata, hd]
        rfl
      have halnum : c.isAlphanum = true := by
        rw [hd] at hO
        exact ownerL_head_alnum hO
      exact dash_start_false_of_alnum hget halnum
  have hsX : (sub == O ++ "/" ++ N) = false := by
    have hne2 : sub ≠ O ++ "/" ++ N := by
      intro he
      rw [← he] at hslash
      rcases hsub with rfl | rfl <;> exact absurd hslash (by decide)
    simp [hne2]
  have hsubdash : strStarts sub "-" = false := by rcases hsub with rfl | rfl <;> decide
  have hsubp : (sub == "-p") = false := by rcases hsub with rfl | rfl <;> decide
  have hsubkey : (sub == "add" || sub == "set-url") = true := by
    rcases hsub with rfl | rfl <;> simp
  have hsXne : sub ≠ O ++ "/" ++ N := by
    intro he
    rw [he] at hsX
    simp at hsX
  by_cases hci : strLower O = strLower user <;>
    simp [remote, transformRemoteArgs, Args.isParamsEmpty, Args.firstParam, Args.lastParam,
      Args.words, Args.indexOfParam, Args.paramsSize, Args.removeParam, Args.replaceParam,
      Args.appendParams, parseRemotePrivateFlag, firstIdx, hsubkey, hsubdash, hsubp,
      hparse, hres, hOne, hlr, hcfg, hXo, hXp, hXdash, hsXne, hci, newProject, GitHubHost,
      Project.gitURL]

/-- Witness for the amended claim C6 at a concrete invocation. -/
theorem c6_owner_name_w :
    remote ⟨true, some ⟨"me", "repo", "github.com"⟩, some "dir", some ⟨"github.com", "alice"⟩⟩
        ⟨"remote", ["add", "foo/bar"], []⟩ =
      .ok ⟨"remote", ["add", "foo",
        if strLower "foo" = strLower "alice"
        then Project.gitURL (newProject "alice" "bar" "") "bar" "alice" true
        else Project.gitURL (newProject "foo" "bar" "") "bar" "foo" false], []⟩ := by
  have h := c6_owner_name "remote" "add" "foo" "bar" "alice" "github.com"
    (⟨true, some ⟨"me", "repo", "github.com"⟩, some "dir", some ⟨"github.com", "alice"⟩⟩ : Context)
    [] (Or.inl rfl) (by decide) (by decide) rfl rfl
  simpa using h

/-! Helper lemmas for the idempotence analysis. -/

theorem remote_of_parse_empty (ctx : Context) (a : Args)
    (h : (parseRepoNameOwner a.lastParam).1 = "") : remote ctx a = .ok a := by
  by_cases hc : (!a.isParamsEmpty && (a.firstParam == "add" || a.firstParam == "set-url")) = true
  · simp [remote, transformRemoteArgs, hc, h]
  · rw [Bool.not_eq_true] at hc
    simp [remote, hc]

theorem apply_of_no_match (a : Args) (h : ∀ p ∈ a.params, urlMatch p = none) :
    Hub.apply a = a := by
  have hfind : a.params.find? (fun p => (urlMatch p).isSome) = none := by
    rw [List.find?_eq_none]
    intro x hx
    rw [h x hx]
    simp
  by_cases he : a.isParamsEmpty = true
  · simp [Hub.apply, he]
  · rw [Bool.not_eq_true] at he
    simp [Hub.apply, he, transformApplyArgs, hfind]

theorem parse_gitURL_none (p : Project) (n o : String) (pv : Bool) :
    parseRepoNameOwner (p.gitURL n o pv) = ("", "") := by
  cases pv
  · have hm : (':' : Char) ∈ ("git://".data : List Char) := by decide
    apply parse_none_of_badchar (c := ':')
    · show ':' ∈ (Project.gitURL p n o false).data
      simp only [Project.gitURL, Bool.false_eq_true, if_false, String.data_append]
      simp [List.mem_append, hm]
    · decide
    · decide
    · decide
  · have hm : ('@' : Char) ∈ ("git@".data : List Char) := by decide
    apply parse_none_of_badchar (c := '@')
    · show '@' ∈ (Project.gitURL p n o true).data
      simp only [Project.gitURL, if_true, String.data_append]
      simp [List.mem_append, hm]
    · decide
    · decide
    · decide

theorem remote_output_url (ctx : Context) (a a' : Args)
    (h : remote ctx a = .ok a') (hne : a' ≠ a) :
    ∃ (p : Project) (n o : String) (pv : Bool) (rest : List String),
      a'.params = rest ++ [p.gitURL n o pv] := by
  by_cases hd : (!a.isParamsEmpty && (a.firstParam == "add" || a.firstParam == "set-url")) = true
  · by_cases hpr : (parseRepoNameOwner a.lastParam).1 = ""
    · exfalso
      rw [remote_of_parse_empty ctx a hpr] at h
      simp at h
      exact hne h.symm
    · cases hlr : ctx.localRepoOk with
      | false =>
        exfalso
        simp [remote, transformRemoteArgs, hd, hpr, hlr] at h
      | true =>
        cases hres : resolveRepoHost ctx (parseRepoNameOwner a.lastParam).2 with
        | error e =>
          exfalso
          simp [remote, transformRemoteArgs, hd, hpr, hlr, hres] at h
        | ok v =>
          rcases v with ⟨n1, rn, ho⟩
          cases hcfg : ctx.defaultHost with
          | none =>
            exfalso
            simp [remote, transformRemoteArgs, hd, hpr, hlr, hres, hcfg] at h
          | some hcf =>
            simp [remote, transformRemoteArgs, hd, hpr, hlr, hres, hcfg] at h
            rw [← h]
            exact ⟨_, _, _, _, _, rfl⟩
  · exfalso
    rw [Bool.not_eq_true] at hd
    simp [remote, hd] at h
    exact hne h.symm

theorem find?_append_none {p : String → Bool} {pre : List String} (l : List String)
    (h : ∀ y ∈ pre, p y = false) :
    List.find? p (pre ++ l) = List.find? p l := by
  induction pre with
  | nil => rfl
  | cons x xs ih =>
    have hx := h x (by simp)
    rw [List.cons_append, List.find?_cons_of_neg _ (by simp [hx])]
    exact ih (fun y hy => h y (by simp [hy]))

theorem firstIdx_append_none {p : String → Bool} {pre : List String} (l : List String)
    (h : ∀ y ∈ pre, p y = false) :
    firstIdx p (pre ++ l) = (firstIdx p l).map (fun i => i + pre.length) := by
  induction pre with
  | nil => simp
  | cons x xs ih =>
    have hx := h x (by simp)
    simp only [List.cons_append, List.append_eq, firstIdx, hx, Bool.false_eq_true, if_false]
    rw [ih (fun y hy => h y (by simp [hy]))]
    cases firstIdx p l <;> simp [Nat.add_assoc]

theorem set_append_len {pre : List String} (post : List String) (x v : String) :
    (pre ++ x :: post).set pre.length v = pre ++ v :: post := by
  induction pre with
  | nil => rfl
  | cons y ys ih =>
    simp only [List.cons_append, List.append_eq, List.length_cons, List.set]
    rw [ih]

theorem urlMatch_none_of_head {s : String} {c : Char} {cs : List Char}
    (hc : ('h' == c) = false) (hd : s.data = c :: cs) : urlMatch s = none := by
  unfold urlMatch strStarts
  rw [hd]
  rw [show ("https://gist.github.com/".data : List Char) =
    'h' :: "ttps://gist.github.com/".data from rfl]
  rw [show ("http://gist.github.com/".data : List Char) =
    'h' :: "ttp://gist.github.com/".data from rfl]
  rw [show ("https://github.com/".data : List Char) =
    'h' :: "ttps://github.com/".data from rfl]
  rw [show ("http://github.com/".data : List Char) =
    'h' :: "ttp://github.com/".data from rfl]
  simp [List.isPrefixOf, hc]

theorem urlMatch_tmp (t u : String) : urlMatch (tempDir ++ "/" ++ t ++ u) = none := by
  have hd : (tempDir ++ "/" ++ t ++ u).data =
      '/' :: ("tmp".data ++ "/".data ++ t.data ++ u.data) := by
    rw [String.data_append, String.data_append, String.data_append,
      show (tempDir.data : List Char) = '/' :: "tmp".data from rfl]
    simp
  exact urlMatch_none_of_head (by decide) hd

/-- Evaluation of the apply transformation when the parameters split into a
prefix with no URL match, the first matching URL, and an arbitrary
remainder. -/
theorem transformApply_eval (cmd : String) (pre post : List String) (url : String)
    (ch : List Cmd)
    (hpre : ∀ p ∈ pre, urlMatch p = none)
    (hmatch : (urlMatch url).isSome = true) :
    transformApplyArgs ⟨cmd, pre ++ url :: post, ch⟩ =
      ⟨cmd,
        pre ++ (tempDir ++ "/" ++ (if (urlMatch url).getD false then "gist-" else "") ++
          fileBase (if !(fileExt (if (urlMatch url).getD false then stripFragment url
                else pullReplace (stripFragment url)) ==
              (if (urlMatch url).getD false then ".txt" else ".patch"))
            then (if (urlMatch url).getD false then stripFragment url
                else pullReplace (stripFragment url)) ++
              (if (urlMatch url).getD false then ".txt" else ".patch")
            else (if (urlMatch url).getD false then stripFragment url
                else pullReplace (stripFragment url)))) :: post,
        ch ++ [⟨"curl", ["-#LA", "gh " ++ version,
          (if !(fileExt (if (urlMatch url).getD false then stripFragment url
                else pullReplace (stripFragment url)) ==
              (if (urlMatch url).getD false then ".txt" else ".patch"))
            then (if (urlMatch url).getD false then stripFragment url
                else pullReplace (stripFragment url)) ++
              (if (urlMatch url).getD false then ".txt" else ".patch")
            else (if (urlMatch url).getD false then stripFragment url
                else pullReplace (stripFragment url))), "-o",
          tempDir ++ "/" ++ (if (urlMatch url).getD false then "gist-" else "") ++
          fileBase (if !(fileExt (if (urlMatch url).getD false then stripFragment url
                else pullReplace (stripFragment url)) ==
              (if (urlMatch url).getD false then ".txt" else ".patch"))
            then (if (urlMatch url).getD false then stripFragment url
                else pullReplace (stripFragment url)) ++
              (if (urlMatch url).getD false then ".txt" else ".patch")
            else (if (urlMatch url).getD false then stripFragment url
                else pullReplace (stripFragment url)))]⟩]⟩ := by
  have hpre' : ∀ y ∈ pre, ((urlMatch y).isSome : Bool) = false := by
    intro y hy
    rw [hpre y hy]
    rfl
  have hfind : (pre ++ url :: post).find? (fun p => (urlMatch p).isSome) = some url := by
    rw [find?_append_none _ hpre']
    exact List.find?_cons_of_pos _ hmatch
  have hneq : ∀ y ∈ pre, ((y == url) : Bool) = false := by
    intro y hy
    cases hbe : (y == url)
    · rfl
    · exfalso
      have he : y = url := beq_iff_eq.mp hbe
      have h1 := hpre y hy
      rw [he] at h1
      rw [h1] at hmatch
      simp at hmatch
  have hidx : firstIdx (fun p => p == url) (pre ++ url :: post) = some pre.length := by
    rw [firstIdx_append_none _ hneq]
    simp [firstIdx]
  simp only [transformApplyArgs, hfind, Args.indexOfParam, hidx, Option.getD_some,
    Args.before]
  simp [set_append_len]

/-- Claim C7 (amended): re-running dispatch plus rewrite on an
already-rewritten argument list is a no-op in these cases — any changed
output of the remote rule ends in a full remote URL, which matches neither
grammar, so a second remote dispatch under any context returns it
unchanged; and for apply, when at most one parameter matches the URL
pattern, a second run changes nothing and enqueues nothing, because the
substituted temp-file path no longer matches the URL pattern.  (With a
second URL-matching parameter present the second apply run does rewrite
again — see the counterexample.) -/
theorem c7_idempotent :
    (∀ (ctx ctx' : Context) (a a' : Args),
      remote ctx a = .ok a' → a' ≠ a → remote ctx' a' = .ok a') ∧
    (∀ a : Args, (a.params.filter (fun p => (urlMatch p).isSome)).length ≤ 1 →
      Hub.apply (Hub.apply a) = Hub.apply a) := by
  constructor
  · intro ctx ctx' a a' h hne
    obtain ⟨p, n, o, pv, rest, hp⟩ := remote_output_url ctx a a' h hne
    apply remote_of_parse_empty
    have hlast : a'.lastParam = p.gitURL n o pv := by
      simp [Args.lastParam, hp, List.getLastD_concat]
    rw [hlast, parse_gitURL_none]
  · intro a hlen
    cases hf : a.params.filter (fun p => (urlMatch p).isSome) with
    | nil =>
      have hall : ∀ q ∈ a.params, urlMatch q = none := by
        intro q hq
        have h2 := List.filter_eq_nil_iff.mp hf q hq
        cases hu : urlMatch q
        · rfl
        · exfalso
          rw [hu] at h2
          simp at h2
      rw [apply_of_no_match a hall, apply_of_no_match a hall]
    | cons x xs =>
      rw [hf] at hlen
      have hxs : xs = [] := by
        cases xs with
        | nil => rfl
        | cons z zs => simp at hlen
      subst hxs
      obtain ⟨pre, post, hsplit, hprefail, hx, hfilterpost⟩ :=
        List.filter_eq_cons_iff.mp hf
      have hpre : ∀ q ∈ pre, urlMatch q = none := by
        intro q hq
        have h2 := hprefail q hq
        cases hu : urlMatch q
        · rfl
        · exfalso
          rw [hu] at h2
          simp at h2
      have hpost : ∀ q ∈ post, urlMatch q = none := by
        intro q hq
        have h2 := List.filter_eq_nil_iff.mp hfilterpost q hq
        cases hu : urlMatch q
        · rfl
        · exfalso
          rw [hu] at h2
          simp at h2
      obtain ⟨cmd, ps, ch⟩ := a
      simp only at hsplit
      subst hsplit
      have hne : (Args.isParamsEmpty ⟨cmd, pre ++ x :: post, ch⟩) = false := by
        simp [Args.isParamsEmpty]
      have h1 : Hub.apply ⟨cmd, pre ++ x :: post, ch⟩ =
          transformApplyArgs ⟨cmd, pre ++ x :: post, ch⟩ := by
        simp [Hub.apply, hne]
      rw [h1, transformApply_eval cmd pre post x ch hpre hx]
      apply apply_of_no_match
      intro q hq
      rcases List.mem_append.1 hq with hq1 | hq2
      · exact hpre q hq1
      · rcases List.mem_cons.1 hq2 with rfl | hq3
        · exact urlMatch_tmp _ _
        · exact hpost q hq3

/-- Witness for the amended claim C7: a second remote dispatch on a
rewritten list is a no-op, and apply is idempotent on a single-URL
invocation. -/
theorem c7_idempotent_w :
    remote ⟨true, some ⟨"me", "repo", "github.com"⟩, some "dir", some ⟨"github.com", "alice"⟩⟩
        ⟨"remote", ["add", "jingweno", "git://github.com/jingweno/repo.git"], []⟩ =
      .ok ⟨"remote", ["add", "jingweno", "git://github.com/jingweno/repo.git"], []⟩ ∧
    Hub.apply (Hub.apply ⟨"apply", ["https://github.com/jingweno/gh/pull/55/files"], []⟩) =
      Hub.apply ⟨"apply", ["https://github.com/jingweno/gh/pull/55/files"], []⟩ :=
  ⟨c7_idempotent.1
      ⟨true, some ⟨"me", "repo", "github.com"⟩, some "dir", some ⟨"github.com", "alice"⟩⟩
      ⟨true, some ⟨"me", "repo", "github.com"⟩, some "dir", some ⟨"github.com", "alice"⟩⟩
      ⟨"remote", ["add", "jingweno"], []⟩
      ⟨"remote", ["add", "jingweno", "git://github.com/jingweno/repo.git"], []⟩
      (by decide) (by decide),
   c7_idempotent.2 ⟨"apply", ["https://github.com/jingweno/gh/pull/55/files"], []⟩ (by decide)⟩

/-! List utilities for the URL rewriting analysis. -/

theorem takeWhile_append_all {p : Char → Bool} {l : List Char} (m : List Char)
    (h : ∀ c ∈ l, p c = true) :
    (l ++ m).takeWhile p = l ++ m.takeWhile p := by
  induction l with
  | nil => simp
  | cons c cs ih =>
    have hc := h c (by simp)
    simp only [List.cons_append, List.takeWhile_cons, hc, if_true]
    rw [ih (fun x hx => h x (by simp [hx]))]

theorem dropWhile_append_all {p : Char → Bool} {l : List Char} (m : List Char)
    (h : ∀ c ∈ l, p c = true) :
    (l ++ m).dropWhile p = m.dropWhile p := by
  induction l with
  | nil => simp
  | cons c cs ih =>
    have hc := h c (by simp)
    simp only [List.cons_append, List.dropWhile_cons, hc, if_true]
    exact ih (fun x hx => h x (by simp [hx]))

theorem all_false_of_mem {p : Char → Bool} {l : List Char} {c : Char}
    (hc : c ∈ l) (hp : p c = false) : l.all p = false := by
  cases h : l.all p
  · rfl
  · exfalso
    have := List.all_eq_true.mp h c hc
    rw [this] at hp
    exact Bool.noConfusion hp

theorem prefix_self_append (l m : List Char) : l.isPrefixOf (l ++ m) = true := by
  induction l with
  | nil => simp [List.isPrefixOf]
  | cons c cs ih => simp [List.isPrefixOf, ih]

theorem stripFragAux_id {l : List Char} (h : '#' ∉ l) : stripFragAux false l = l := by
  induction l with
  | nil => rfl
  | cons c rest ih =>
    have hc : ¬(c = '#') := fun he => h (by simp [he])
    have hrest : '#' ∉ rest := fun hm => h (by simp [hm])
    simp [stripFragAux, hc, ih hrest]

theorem stripFragment_id {s : String} (h : '#' ∉ s.data) : stripFragment s = s :=
  strMk_eq (stripFragAux_id h)

theorem fileExtAux_stops {l : List Char} (m : List Char) (acc : List Char)
    (h : ∀ c ∈ l, ¬(c = '.') ∧ ¬(c = '/')) :
    fileExtAux (l ++ '/' :: m) acc = [] := by
  induction l generalizing acc with
  | nil => simp [fileExtAux]
  | cons c cs ih =>
    have hc := h c (by simp)
    have hstep : fileExtAux (c :: (cs ++ '/' :: m)) acc = fileExtAux (cs ++ '/' :: m) (c :: acc) := by
      simp [fileExtAux, hc.1, hc.2]
    rw [List.cons_append, hstep]
    exact ih _ (fun x hx => h x (by simp [hx]))

theorem fileExt_of_rev {s : String} {l m : List Char}
    (hd : s.data.reverse = l ++ '/' :: m)
    (h : ∀ c ∈ l, ¬(c = '.') ∧ ¬(c = '/')) : fileExt s = "" := by
  unfold fileExt
  rw [hd, fileExtAux_stops m [] h]

theorem fileExt_txt_of_rev {s : String} {l : List Char}
    (hd : s.data.reverse = 't' :: 'x' :: 't' :: '.' :: l) : fileExt s = ".txt" := by
  unfold fileExt
  rw [hd]
  rfl

theorem fileBase_of_rev {s : String} {good m : List Char}
    (hd : s.data.reverse = good ++ '/' :: m)
    (hgood : ∀ c ∈ good, ¬(c = '/'))
    (hgoodne : good ≠ []) : fileBase s = ⟨good.reverse⟩ := by
  obtain ⟨g0, g', rfl⟩ : ∃ g0 g', good = g0 :: g' := by
    cases good with
    | nil => exact absurd rfl hgoodne
    | cons x xs => exact ⟨x, xs, rfl⟩
  have hg0 : ¬(g0 = '/') := hgood g0 (by simp)
  have hne : s ≠ "" := by
    intro he
    rw [he] at hd
    simp at hd
  unfold fileBase
  rw [if_neg hne]
  have hdrop : dropTrailingSlashes s.data = s.data := by
    unfold dropTrailingSlashes
    rw [hd]
    simp only [List.cons_append, List.dropWhile_cons]
    simp only [hg0, decide_eq_true_eq, if_false]
    rw [← List.cons_append, ← hd, List.reverse_reverse]
  have htake : ((g0 :: g') ++ '/' :: m).takeWhile (fun c => !(c = '/')) = g0 :: g' := by
    rw [takeWhile_append_all ('/' :: m) (fun c hc => by simp [hgood c hc])]
    simp [List.takeWhile_cons]
  have hlast : lastComponent s.data = (g0 :: g').reverse := by
    unfold lastComponent
    rw [hd, htake]
  have hbne : ((g0 :: g').reverse).isEmpty = false := by
    simp
  simp only [hdrop, hlast, hbne, Bool.false_eq_true, if_false]

/-! Lemmas on the pull-request suffix pattern. -/

theorem matchAt_ne_of_get {L : List Char} {i : Nat} {c : Char} (hi : i < 6)
    (hg : L[i]? = some c)
    (hp : ¬((['/', 'p', 'u', 'l', 'l', '/'] : List Char)[i]? = some c)) :
    matchAt L = none := by
  have h6 : ¬(L.take 6 = ['/', 'p', 'u', 'l', 'l', '/']) := by
    intro h
    apply hp
    rw [← h, List.getElem?_take_of_lt hi]
    exact hg
  unfold matchAt
  rw [if_neg h6]

theorem matchAt_cons_ne {c : Char} {l : List Char} (hc : ¬(c = '/')) :
    matchAt (c :: l) = none := by
  have h6 : ¬((c :: l).take 6 = ['/', 'p', 'u', 'l', 'l', '/']) := by
    rw [show (c :: l).take 6 = c :: l.take 5 from rfl]
    intro h
    simp at h
    exact hc h.1
  unfold matchAt
  rw [if_neg h6]

theorem matchAt_none_of_no_slash {l : List Char} (h : ∀ c ∈ l, ¬(c = '/')) :
    matchAt ('/' :: l) = none := by
  have h6 : ¬(('/' :: l).take 6 = ['/', 'p', 'u', 'l', 'l', '/']) := by
    rw [show ('/' :: l).take 6 = '/' :: l.take 5 from rfl]
    intro he
    have h5 : l.take 5 = ['p', 'u', 'l', 'l', '/'] := by simpa using he
    have hm : '/' ∈ l.take 5 := by rw [h5]; simp
    exact h '/' (List.take_subset 5 l hm) rfl
  unfold matchAt
  rw [if_neg h6]

theorem matchAt_append_long_ne {l1 : List Char} (l2 : List Char) (hlen : 6 ≤ l1.length)
    (hne6 : ¬(l1.take 6 = ['/', 'p', 'u', 'l', 'l', '/'])) : matchAt (l1 ++ l2) = none := by
  have htake : (l1 ++ l2).take 6 = l1.take 6 := by
    rw [List.take_append_eq_append_take, Nat.sub_eq_zero_of_le hlen]
    simp
  unfold matchAt
  rw [htake, if_neg hne6]

theorem dropWhile_head_false {p : Char → Bool} {l : List Char} {c : Char} {t : List Char}
    (h : l.dropWhile p = c :: t) : p c = false := by
  induction l with
  | nil => simp at h
  | cons x xs ih =>
    rw [List.dropWhile_cons] at h
    by_cases hx : p x = true
    · rw [if_pos hx] at h
      exact ih h
    · rw [if_neg hx] at h
      injection h with h1 h2
      rw [← h1]
      cases hpx : p x
      · rfl
      · exact absurd hpx hx

theorem pullTail_digits (d w : List Char) (hd : d ≠ [])
    (hdig : ∀ c ∈ d, Char.isDigit c = true)
    (hw : w.all isWordChar = true) : pullTail (d ++ '/' :: w) = some d := by
  unfold pullTail
  rw [takeWhile_append_all ('/' :: w) hdig, dropWhile_append_all ('/' :: w) hdig]
  have ht : ('/' :: w).takeWhile Char.isDigit = [] := by
    simp [List.takeWhile_cons, show Char.isDigit '/' = false from rfl]
  have hdm : ('/' :: w).dropWhile Char.isDigit = '/' :: w := by
    simp [List.dropWhile_cons, show Char.isDigit '/' = false from rfl]
  rw [ht, hdm]
  simp [hd, hw]

theorem pullTail_none_append {l rest : List Char} (hl : ∀ c ∈ l, ¬(c = '/'))
    (hrest : rest.all isWordChar = false) : pullTail (l ++ '/' :: rest) = none := by
  by_cases hall : ∀ c ∈ l, Char.isDigit c = true
  · unfold pullTail
    rw [takeWhile_append_all ('/' :: rest) hall, dropWhile_append_all ('/' :: rest) hall]
    have hdm : ('/' :: rest).dropWhile Char.isDigit = '/' :: rest := by
      simp [List.dropWhile_cons, show Char.isDigit '/' = false from rfl]
    rw [hdm]
    simp [hrest]
  · obtain ⟨d, c, l2, hsplit, hddig, hcnd⟩ :
        ∃ d c l2, l = d ++ c :: l2 ∧ (∀ x ∈ d, Char.isDigit x = true) ∧
          Char.isDigit c = false := by
      cases hr : l.dropWhile Char.isDigit with
      | nil =>
        exfalso
        apply hall
        intro c hc
        have hfull : l.takeWhile Char.isDigit = l := by
          have h2 := List.takeWhile_append_dropWhile Char.isDigit l
          rw [hr] at h2
          simpa using h2
        apply List.mem_takeWhile_imp
        rw [hfull]
        exact hc
      | cons c l2 =>
        refine ⟨l.takeWhile Char.isDigit, c, l2, ?_, ?_, dropWhile_head_false hr⟩
        · rw [← hr]
          exact (List.takeWhile_append_dropWhile _ _).symm
        · intro x hx
          exact List.mem_takeWhile_imp hx
    have hcs : ¬(c = '/') := hl c (by simp [hsplit])
    subst hsplit
    unfold pullTail
    rw [show ((d ++ c :: l2) ++ '/' :: rest) = d ++ (c :: (l2 ++ '/' :: rest)) from by simp]
    rw [takeWhile_append_all _ hddig, dropWhile_append_all _ hddig]
    have h1 : (c :: (l2 ++ '/' :: rest)).takeWhile Char.isDigit = [] := by
      simp [List.takeWhile_cons, hcnd]
    have h2 : (c :: (l2 ++ '/' :: rest)).dropWhile Char.isDigit = c :: (l2 ++ '/' :: rest) := by
      simp [List.dropWhile_cons, hcnd]
    rw [h1, h2]
    simp [hcs]

theorem matchAt_slash_seg {l rest : List Char} (hl : ∀ c ∈ l, ¬(c = '/'))
    (hrest : pullTail rest = none) : matchAt ('/' :: (l ++ '/' :: rest)) = none := by
  rcases l with _ | ⟨c1, _ | ⟨c2, _ | ⟨c3, _ | ⟨c4, _ | ⟨c5, l5⟩⟩⟩⟩⟩
  · exact matchAt_ne_of_get (i := 1) (c := '/') (by decide) (by simp) (by decide)
  · exact matchAt_ne_of_get (i := 2) (c := '/') (by decide) (by simp) (by decide)
  · exact matchAt_ne_of_get (i := 3) (c := '/') (by decide) (by simp) (by decide)
  · exact matchAt_ne_of_get (i := 4) (c := '/') (by decide) (by simp) (by decide)
  · unfold matchAt
    rw [show ('/' :: ([c1, c2, c3, c4] ++ '/' :: rest)).drop 6 = rest from rfl, hrest]
    simp
  · have h6 : ¬(('/' :: ((c1 :: c2 :: c3 :: c4 :: c5 :: l5) ++ '/' :: rest)).take 6 =
        ['/', 'p', 'u', 'l', 'l', '/']) := by
      rw [show ('/' :: ((c1 :: c2 :: c3 :: c4 :: c5 :: l5) ++ '/' :: rest)).take 6 =
        ['/', c1, c2, c3, c4, c5] from rfl]
      intro h
      simp at h
      exact hl c5 (by simp) h.2.2.2.2
    unfold matchAt
    rw [if_neg h6]

theorem suffix_append_split {zs a b : List Char} (h : zs <:+ a ++ b) :
    zs <:+ b ∨ ∃ za, za <:+ a ∧ za ≠ [] ∧ zs = za ++ b := by
  induction a with
  | nil => left; simpa using h
  | cons x a' ih =>
    rw [List.cons_append, List.suffix_cons_iff] at h
    rcases h with rfl | h2
    · right
      exact ⟨x :: a', List.suffix_refl _, by simp, by simp⟩
    · rcases ih h2 with h3 | ⟨za, hza, hne, rfl⟩
      · left; exact h3
      · right
        exact ⟨za, hza.trans (List.suffix_cons x a'), hne, rfl⟩

theorem matchAt_suffix_ne {zs L : List Char} (ys : List Char) (hsuf : zs <:+ L)
    (hne : zs ≠ []) (hchar : ∀ c ∈ L, ¬(c = '/')) : matchAt (zs ++ ys) = none := by
  cases zs with
  | nil => exact absurd rfl hne
  | cons c t =>
    have hc : c ∈ L := hsuf.subset (by simp)
    rw [List.cons_append]
    exact matchAt_cons_ne (hchar c hc)

theorem pullScan_append {xs ys : List Char}
    (h : ∀ zs, zs <:+ xs → zs ≠ [] → matchAt (zs ++ ys) = none) :
    pullScan (xs ++ ys) = (pullScan ys).map (fun r => xs ++ r) := by
  induction xs with
  | nil =>
    rw [List.nil_append]
    cases pullScan ys <;> simp
  | cons c xs ih =>
    have h0 : matchAt (c :: (xs ++ ys)) = none := by
      rw [← List.cons_append]
      exact h (c :: xs) (List.suffix_refl _) (by simp)
    rw [List.cons_append]
    simp only [pullScan, h0]
    rw [ih (fun zs hzs hzne => h zs (hzs.trans (List.suffix_cons c xs)) hzne)]
    cases pullScan ys <;> simp

theorem matchAt_P_suffix {za : List Char} (tail0 : List Char)
    (hsuf : za <:+ ("https://github.com/".data : List Char)) (hne : za ≠ [])
    (hslash : matchAt ('/' :: tail0) = none) :
    matchAt (za ++ tail0) = none := by
  have hmem : za ∈ ("https://github.com/".data : List Char).tails :=
    (List.mem_tails _ _).2 hsuf
  rw [show ("https://github.com/".data : List Char).tails =
    ["https://github.com/".data, "ttps://github.com/".data, "tps://github.com/".data,
     "ps://github.com/".data, "s://github.com/".data, "://github.com/".data,
     "//github.com/".data, "/github.com/".data, "github.com/".data, "ithub.com/".data,
     "thub.com/".data, "hub.com/".data, "ub.com/".data, "b.com/".data, ".com/".data,
     "com/".data, "om/".data, "m/".data, "/".data, []] from rfl] at hmem
  simp only [List.mem_cons, List.not_mem_nil, or_false] at hmem
  rcases hmem with rfl|rfl|rfl|rfl|rfl|rfl|rfl|rfl|rfl|rfl|rfl|rfl|rfl|rfl|rfl|rfl|rfl|rfl|rfl|rfl
  any_goals first
    | exact absurd rfl hne
    | exact hslash
    | (apply matchAt_cons_ne; decide)
  · exact matchAt_ne_of_get (i := 1) (c := '/') (by decide) (by simp) (by decide)
  · exact matchAt_ne_of_get (i := 1) (c := 'g') (by decide) (by simp) (by decide)

/-! Evaluation lemmas for the URL pattern and the pull-request collapse on
symbolic github URLs. -/

theorem urlMatch_github_data {s : String} {rest : List Char}
    (hd : s.data = "https://github.com/".data ++ rest) : urlMatch s = some false := by
  have h1 : strStarts s "https://gist.github.com/" = false := by
    unfold strStarts
    rw [hd]
    rfl
  have h2 : strStarts s "http://gist.github.com/" = false := by
    unfold strStarts
    rw [hd]
    rfl
  have h3 : strStarts s "https://github.com/" = true := by
    unfold strStarts
    rw [hd]
    exact prefix_self_append _ _
  simp [urlMatch, h1, h2, h3]

theorem urlMatch_gist_data {s : String} {rest : List Char}
    (hd : s.data = "https://gist.github.com/".data ++ rest) : urlMatch s = some true := by
  have h1 : strStarts s "https://gist.github.com/" = true := by
    unfold strStarts
    rw [hd]
    exact prefix_self_append _ _
  simp [urlMatch, h1]

theorem pullTail_cons_ne {c : Char} (t : List Char) (hd : c.isDigit = false)
    (hs : ¬(c = '/')) : pullTail (c :: t) = none := by
  simp [pullTail, List.dropWhile_cons, hd, hs]

theorem pullScan_none {l : List Char}
    (h : ∀ zs, zs <:+ l → zs ≠ [] → matchAt zs = none) : pullScan l = none := by
  induction l with
  | nil => rfl
  | cons c t ih =>
    have h0 : matchAt (c :: t) = none := h (c :: t) (List.suffix_refl _) (by simp)
    simp only [pullScan, h0]
    rw [ih (fun zs hzs hzne => h zs (hzs.trans (List.suffix_cons c t)) hzne)]
    rfl

theorem pullScan_host_clean {m : String} (hm : ∀ c ∈ m.data, ¬(c = '/')) :
    pullScan ("https://github.com/".data ++ m.data) = none := by
  apply pullScan_none
  intro zs hsuf hne
  rcases suffix_append_split hsuf with h | ⟨za, hza, hzane, rfl⟩
  · cases zs with
    | nil => exact absurd rfl hne
    | cons c t => exact matchAt_cons_ne (hm c (h.subset (by simp)))
  · exact matchAt_P_suffix _ hza hzane (matchAt_none_of_no_slash hm)

theorem matchAt_url_suffixes {own rep : String} (tail : List Char)
    (hown : isOwnerL own.data = true) (hrep : isNameL rep.data = true) :
    ∀ zs, zs <:+ ("https://github.com/".data ++ (own.data ++ ('/' :: rep.data))) → zs ≠ [] →
      matchAt (zs ++ ('/' :: 'p' :: 'u' :: 'l' :: 'l' :: '/' :: tail)) = none := by
  intro zs hsuf hne
  have hownS : ∀ c ∈ own.data, ¬(c = '/') :=
    fun c hc => ownerChar_ne_slash (ownerL_mem hown hc)
  have hrepS : ∀ c ∈ rep.data, ¬(c = '/') :=
    fun c hc => nameChar_ne_slash (nameL_mem hrep hc)
  have hrest : pullTail ('p' :: 'u' :: 'l' :: 'l' :: '/' :: tail) = none :=
    pullTail_cons_ne _ (by decide) (by decide)
  rcases suffix_append_split hsuf with hA | ⟨za, hza, hzane, rfl⟩
  · rcases suffix_append_split hA with hA1 | ⟨zb, hzb, hzbne, rfl⟩
    · rw [List.suffix_cons_iff] at hA1
      rcases hA1 with rfl | hA1b
      · rw [List.cons_append]
        exact matchAt_slash_seg hrepS hrest
      · exact matchAt_suffix_ne _ hA1b hne hrepS
    · rw [List.append_assoc]
      exact matchAt_suffix_ne _ hzb hzbne hownS
  · rw [List.append_assoc]
    apply matchAt_P_suffix _ hza hzane
    rw [List.append_assoc, List.cons_append]
    apply matchAt_slash_seg hownS
    apply pullTail_none_append hrepS
    exact all_false_of_mem (c := '/') (by simp) (by decide)

theorem pullScan_pull_seg (num w : String) (hnum : num.data ≠ [])
    (hdig : ∀ c ∈ num.data, Char.isDigit c = true)
    (hw : w.data.all isWordChar = true) :
    pullScan ('/' :: 'p' :: 'u' :: 'l' :: 'l' :: '/' :: (num.data ++ '/' :: w.data)) =
      some ('/' :: 'p' :: 'u' :: 'l' :: 'l' :: '/' :: num.data) := by
  have hm : matchAt ('/' :: 'p' :: 'u' :: 'l' :: 'l' :: '/' :: (num.data ++ '/' :: w.data)) =
      some ('/' :: 'p' :: 'u' :: 'l' :: 'l' :: '/' :: num.data) := by
    unfold matchAt
    rw [if_pos (show (('/' :: 'p' :: 'u' :: 'l' :: 'l' :: '/' ::
        (num.data ++ '/' :: w.data)).take 6) = ['/', 'p', 'u', 'l', 'l', '/'] from rfl)]
    rw [show (('/' :: 'p' :: 'u' :: 'l' :: 'l' :: '/' ::
        (num.data ++ '/' :: w.data)).drop 6) = num.data ++ '/' :: w.data from rfl]
    rw [pullTail_digits num.data w.data hnum hdig hw]
    rfl
  simp only [pullScan, hm]

theorem fileExt_of_last_seg {s : String} {pre l : List Char}
    (hd : s.data = pre ++ '/' :: l)
    (hl : ∀ c ∈ l, ¬(c = '.') ∧ ¬(c = '/')) : fileExt s = "" := by
  apply fileExt_of_rev (l := l.reverse) (m := pre.reverse)
  · rw [hd]
    simp
  · intro c hc
    exact hl c (List.mem_reverse.mp hc)

theorem fileBase_of_last_seg {s : String} {pre l : List Char}
    (hd : s.data = pre ++ '/' :: l)
    (hl : ∀ c ∈ l, ¬(c = '/')) (hne : l ≠ []) : fileBase s = ⟨l⟩ := by
  have h := @fileBase_of_rev s l.reverse pre.reverse
    (by rw [hd]; simp) (fun c hc => hl c (List.mem_reverse.mp hc)) (by simpa using hne)
  rw [List.reverse_reverse] at h
  exact h

theorem apply_dispatch (cmd : String) (pre post : List String) (u : String) (ch : List Cmd) :
    Hub.apply ⟨cmd, pre ++ u :: post, ch⟩ = transformApplyArgs ⟨cmd, pre ++ u :: post, ch⟩ := by
  have hne : (pre ++ u :: post).isEmpty = false := by cases pre <;> rfl
  simp [Hub.apply, Args.isParamsEmpty, hne]

/-- Claim C4: for an apply invocation whose first URL-matching parameter is
a main-host pull-request URL with a word suffix after the pull number (such
as files or commits), exactly one prerequisite fetch is enqueued, its
target is the URL with the suffix collapsed to the pull number and .patch
appended, the matching parameter alone is replaced in place by the
deterministic temp path, and all other parameters - including any later
URL-matching ones - are unchanged. -/
theorem c4_apply_pull (cmd own rep num w : String) (pre post : List String)
    (hown : isOwnerL own.data = true) (hrep : isNameL rep.data = true)
    (hnum : num.data ≠ []) (hdig : ∀ c ∈ num.data, Char.isDigit c = true)
    (hw : w.data.all isWordChar = true)
    (hpre : ∀ p ∈ pre, urlMatch p = none) :
    Hub.apply ⟨cmd,
        pre ++ ("https://github.com/" ++ own ++ "/" ++ rep ++ "/pull/" ++ num ++ "/" ++ w)
          :: post, []⟩ =
      ⟨cmd, pre ++ (tempDir ++ "/" ++ (num ++ ".patch")) :: post,
        [⟨"curl", ["-#LA", "gh " ++ version,
          ("https://github.com/" ++ own ++ "/" ++ rep ++ "/pull/" ++ num) ++ ".patch", "-o",
          tempDir ++ "/" ++ (num ++ ".patch")]⟩]⟩ := by
  have hdata : ("https://github.com/" ++ own ++ "/" ++ rep ++ "/pull/" ++ num ++ "/" ++ w).data =
      "https://github.com/".data ++ (own.data ++ ('/' :: (rep.data ++
        ('/' :: 'p' :: 'u' :: 'l' :: 'l' :: '/' :: (num.data ++ '/' :: w.data))))) := by
    rw [String.data_append, String.data_append, String.data_append, String.data_append,
      String.data_append, String.data_append, String.data_append,
      show ("/".data : List Char) = ['/'] from rfl,
      show ("/pull/".data : List Char) = ['/', 'p', 'u', 'l', 'l', '/'] from rfl]
    simp
  have hum : urlMatch ("https://github.com/" ++ own ++ "/" ++ rep ++ "/pull/" ++ num ++ "/" ++ w) =
      some false := urlMatch_github_data hdata
  have hmatch : (urlMatch ("https://github.com/" ++ own ++ "/" ++ rep ++ "/pull/" ++ num ++
      "/" ++ w)).isSome = true := by
    rw [hum]
    rfl
  have hhash : '#' ∉ ("https://github.com/" ++ own ++ "/" ++ rep ++ "/pull/" ++ num ++
      "/" ++ w).data := by
    rw [hdata]
    intro hmem
    simp only [List.mem_append, List.mem_cons] at hmem
    rcases hmem with h | h | h | h | h | h | h | h | h | h | h | h | h
    · exact absurd h (by decide)
    · exact absurd (ownerL_mem hown h) (by decide)
    · exact absurd h (by decide)
    · exact absurd (nameL_mem hrep h) (by decide)
    · exact absurd h (by decide)
    · exact absurd h (by decide)
    · exact absurd h (by decide)
    · exact absurd h (by decide)
    · exact absurd h (by decide)
    · exact absurd h (by decide)
    · exact absurd (hdig _ h) (by decide)
    · exact absurd h (by decide)
    · exact absurd (List.all_eq_true.mp hw _ h) (by decide)
  have hstrip : stripFragment ("https://github.com/" ++ own ++ "/" ++ rep ++ "/pull/" ++ num ++
      "/" ++ w) = "https://github.com/" ++ own ++ "/" ++ rep ++ "/pull/" ++ num ++ "/" ++ w :=
    stripFragment_id hhash
  have hd2 : ("https://github.com/" ++ own ++ "/" ++ rep ++ "/pull/" ++ num ++ "/" ++ w).data =
      ("https://github.com/".data ++ (own.data ++ ('/' :: rep.data))) ++
        ('/' :: 'p' :: 'u' :: 'l' :: 'l' :: '/' :: (num.data ++ '/' :: w.data)) := by
    rw [hdata]
    simp
  have hscan : pullScan ("https://github.com/" ++ own ++ "/" ++ rep ++ "/pull/" ++ num ++
      "/" ++ w).data =
      some (("https://github.com/".data ++ (own.data ++ ('/' :: rep.data))) ++
        ('/' :: 'p' :: 'u' :: 'l' :: 'l' :: '/' :: num.data)) := by
    rw [hd2, pullScan_append (matchAt_url_suffixes _ hown hrep),
      pullScan_pull_seg num w hnum hdig hw]
    rfl
  have hcd : ("https://github.com/" ++ own ++ "/" ++ rep ++ "/pull/" ++ num).data =
      "https://github.com/".data ++ (own.data ++ ('/' :: (rep.data ++
        ('/' :: 'p' :: 'u' :: 'l' :: 'l' :: '/' :: num.data)))) := by
    rw [String.data_append, String.data_append, String.data_append, String.data_append,
      String.data_append,
      show ("/".data : List Char) = ['/'] from rfl,
      show ("/pull/".data : List Char) = ['/', 'p', 'u', 'l', 'l', '/'] from rfl]
    simp
  have hpull : pullReplace ("https://github.com/" ++ own ++ "/" ++ rep ++ "/pull/" ++ num ++
      "/" ++ w) = "https://github.com/" ++ own ++ "/" ++ rep ++ "/pull/" ++ num := by
    unfold pullReplace
    rw [hscan]
    apply strMk_eq
    rw [hcd]
    simp
  have hnumc : ∀ c ∈ num.data, ¬(c = '.') ∧ ¬(c = '/') := by
    intro c hc
    have h1 := hdig c hc
    constructor
    · intro he
      rw [he] at h1
      exact absurd h1 (by decide)
    · intro he
      rw [he] at h1
      exact absurd h1 (by decide)
  have hd3 : ("https://github.com/" ++ own ++ "/" ++ rep ++ "/pull/" ++ num).data =
      ("https://github.com/".data ++ (own.data ++ ('/' :: (rep.data ++
        ['/', 'p', 'u', 'l', 'l'])))) ++ '/' :: num.data := by
    rw [hcd]
    simp
  have hext : fileExt ("https://github.com/" ++ own ++ "/" ++ rep ++ "/pull/" ++ num) = "" :=
    fileExt_of_last_seg hd3 hnumc
  have hd4 : (("https://github.com/" ++ own ++ "/" ++ rep ++ "/pull/" ++ num) ++ ".patch").data =
      ("https://github.com/".data ++ (own.data ++ ('/' :: (rep.data ++
        ['/', 'p', 'u', 'l', 'l'])))) ++ '/' :: (num.data ++ ".patch".data) := by
    rw [String.data_append, hcd]
    simp
  have hbase : fileBase (("https://github.com/" ++ own ++ "/" ++ rep ++ "/pull/" ++ num) ++
      ".patch") = num ++ ".patch" := by
    rw [fileBase_of_last_seg hd4 ?hl ?hne]
    · exact strMk_eq (String.data_append num ".patch").symm
    case hl =>
      intro c hc
      rcases List.mem_append.mp hc with h | h
      · exact (hnumc c h).2
      · have h2 : c ∈ ['.', 'p', 'a', 't', 'c', 'h'] := h
        simp at h2
        rcases h2 with rfl | rfl | rfl | rfl | rfl | rfl <;> decide
    case hne =>
      intro he
      have h2 := List.append_eq_nil.mp he
      exact absurd h2.2 (by decide)
  rw [apply_dispatch, transformApply_eval cmd pre post _ [] hpre hmatch]
  simp only [hum, Option.getD_some, Bool.false_eq_true, if_false, hstrip, hpull, hext]
  rw [show ((("" : String) == ".patch") : Bool) = false from rfl]
  simp only [Bool.not_false, if_true, hbase, List.nil_append]
  rw [String.append_empty]

/-- Witness for claim C4 at the concrete invocation apply
https://github.com/defunkt/hub/pull/55/files. -/
theorem c4_apply_pull_w :
    Hub.apply ⟨"am",
        [("https://github.com/" ++ "defunkt" ++ "/" ++ "hub" ++ "/pull/" ++ "55" ++ "/" ++
          "files")], []⟩ =
      ⟨"am", [tempDir ++ "/" ++ ("55" ++ ".patch")],
        [⟨"curl", ["-#LA", "gh " ++ version,
          ("https://github.com/" ++ "defunkt" ++ "/" ++ "hub" ++ "/pull/" ++ "55") ++ ".patch",
          "-o", tempDir ++ "/" ++ ("55" ++ ".patch")]⟩]⟩ :=
  c4_apply_pull "am" "defunkt" "hub" "55" "files" [] [] (by decide) (by decide) (by decide)
    (by decide) (by decide) (by simp)

/-- Claim C9: the gist/non-gist choice of the apply rule is made from the
URL's subdomain alone — a gist URL gets the gist- prefix and the .txt
extension in the synthesized temp filename (the extension appended exactly
when the URL does not already end in .txt), while a main-host URL gets no
prefix and the .patch extension; stated for alphanumeric trailing
segments. -/
theorem c9_gist_naming (cmd g m : String)
    (hg : ∀ c ∈ g.data, c.isAlphanum = true)
    (hm : ∀ c ∈ m.data, c.isAlphanum = true) :
    (Hub.apply ⟨cmd, ["https://gist.github.com/" ++ g], []⟩ =
      ⟨cmd, [tempDir ++ "/" ++ "gist-" ++ (g ++ ".txt")],
        [⟨"curl", ["-#LA", "gh " ++ version,
          ("https://gist.github.com/" ++ g) ++ ".txt", "-o",
          tempDir ++ "/" ++ "gist-" ++ (g ++ ".txt")]⟩]⟩) ∧
    (Hub.apply ⟨cmd, ["https://gist.github.com/" ++ g ++ ".txt"], []⟩ =
      ⟨cmd, [tempDir ++ "/" ++ "gist-" ++ (g ++ ".txt")],
        [⟨"curl", ["-#LA", "gh " ++ version,
          "https://gist.github.com/" ++ g ++ ".txt", "-o",
          tempDir ++ "/" ++ "gist-" ++ (g ++ ".txt")]⟩]⟩) ∧
    (Hub.apply ⟨cmd, ["https://github.com/" ++ m], []⟩ =
      ⟨cmd, [tempDir ++ "/" ++ (m ++ ".patch")],
        [⟨"curl", ["-#LA", "gh " ++ version,
          ("https://github.com/" ++ m) ++ ".patch", "-o",
          tempDir ++ "/" ++ (m ++ ".patch")]⟩]⟩) := by
  have hgc : ∀ c ∈ g.data, ¬(c = '.') ∧ ¬(c = '/') := by
    intro c hc
    have h1 := hg c hc
    constructor
    · intro he
      rw [he] at h1
      exact absurd h1 (by decide)
    · intro he
      rw [he] at h1
      exact absurd h1 (by decide)
  have hmc : ∀ c ∈ m.data, ¬(c = '.') ∧ ¬(c = '/') := by
    intro c hc
    have h1 := hm c hc
    constructor
    · intro he
      rw [he] at h1
      exact absurd h1 (by decide)
    · intro he
      rw [he] at h1
      exact absurd h1 (by decide)
  refine ⟨?_, ?_, ?_⟩
  · -- gist URL with a clean trailing segment: gist- prefix, .txt appended
    have hdataA : ("https://gist.github.com/" ++ g).data =
        "https://gist.github.com/".data ++ g.data := String.data_append _ _
    have humA : urlMatch ("https://gist.github.com/" ++ g) = some true :=
      urlMatch_gist_data hdataA
    have hmatchA : (urlMatch ("https://gist.github.com/" ++ g)).isSome = true := by
      rw [humA]
      rfl
    have hhashA : '#' ∉ ("https://gist.github.com/" ++ g).data := by
      rw [hdataA]
      intro hmem
      rcases List.mem_append.mp hmem with h | h
      · exact absurd h (by decide)
      · exact absurd (hg _ h) (by decide)
    have hstripA : stripFragment ("https://gist.github.com/" ++ g) =
        "https://gist.github.com/" ++ g := stripFragment_id hhashA
    have hdA : ("https://gist.github.com/" ++ g).data =
        "https://gist.github.com".data ++ '/' :: g.data := by
      rw [hdataA, show ("https://gist.github.com/".data : List Char) =
        "https://gist.github.com".data ++ ['/'] from rfl]
      simp
    have hextA : fileExt ("https://gist.github.com/" ++ g) = "" :=
      fileExt_of_last_seg hdA hgc
    have hd4A : (("https://gist.github.com/" ++ g) ++ ".txt").data =
        "https://gist.github.com".data ++ '/' :: (g.data ++ ".txt".data) := by
      rw [String.data_append, hdA]
      simp
    have hbaseA : fileBase (("https://gist.github.com/" ++ g) ++ ".txt") = g ++ ".txt" := by
      rw [fileBase_of_last_seg hd4A ?hl ?hne]
      · exact strMk_eq (String.data_append g ".txt").symm
      case hl =>
        intro c hc
        rcases List.mem_append.mp hc with h | h
        · exact (hgc c h).2
        · have h2 : c ∈ ['.', 't', 'x', 't'] := h
          simp at h2
          rcases h2 with rfl | rfl | rfl | rfl <;> decide
      case hne =>
        intro he
        have h2 := List.append_eq_nil.mp he
        exact absurd h2.2 (by decide)
    have h0 := apply_dispatch cmd [] [] ("https://gist.github.com/" ++ g) []
    simp only [List.nil_append] at h0
    have h1 := transformApply_eval cmd [] [] ("https://gist.github.com/" ++ g) []
      (by simp) hmatchA
    simp only [List.nil_append] at h1
    rw [h0, h1]
    simp only [humA, Option.getD_some, eq_self_iff_true, if_true, hstripA, hextA]
    rw [show ((("" : String) == ".txt") : Bool) = false from rfl]
    simp only [Bool.not_false, if_true, hbaseA]
  · -- gist URL already ending in .txt: no second extension appended
    have hdataB : ("https://gist.github.com/" ++ g ++ ".txt").data =
        "https://gist.github.com/".data ++ (g.data ++ ".txt".data) := by
      rw [String.data_append, String.data_append, List.append_assoc]
    have humB : urlMatch ("https://gist.github.com/" ++ g ++ ".txt") = some true :=
      urlMatch_gist_data hdataB
    have hmatchB : (urlMatch ("https://gist.github.com/" ++ g ++ ".txt")).isSome = true := by
      rw [humB]
      rfl
    have hhashB : '#' ∉ ("https://gist.github.com/" ++ g ++ ".txt").data := by
      rw [hdataB]
      intro hmem
      rcases List.mem_append.mp hmem with h | h
      · exact absurd h (by decide)
      rcases List.mem_append.mp h with h | h
      · exact absurd (hg _ h) (by decide)
      · exact absurd h (by decide)
    have hstripB : stripFragment ("https://gist.github.com/" ++ g ++ ".txt") =
        "https://gist.github.com/" ++ g ++ ".txt" := stripFragment_id hhashB
    have hrevB : ("https://gist.github.com/" ++ g ++ ".txt").data.reverse =
        't' :: 'x' :: 't' :: '.' ::
          (g.data.reverse ++ ("https://gist.github.com/".data).reverse) := by
      rw [String.data_append, String.data_append, List.reverse_append, List.reverse_append,
        show ((".txt".data : List Char).reverse) = ['t', 'x', 't', '.'] from rfl]
      simp
    have hextB : fileExt ("https://gist.github.com/" ++ g ++ ".txt") = ".txt" :=
      fileExt_txt_of_rev hrevB
    have hdB : ("https://gist.github.com/" ++ g ++ ".txt").data =
        "https://gist.github.com".data ++ '/' :: (g.data ++ ".txt".data) := by
      rw [hdataB, show ("https://gist.github.com/".data : List Char) =
        "https://gist.github.com".data ++ ['/'] from rfl]
      simp
    have hbaseB : fileBase ("https://gist.github.com/" ++ g ++ ".txt") = g ++ ".txt" := by
      rw [fileBase_of_last_seg hdB ?hl ?hne]
      · exact strMk_eq (String.data_append g ".txt").symm
      case hl =>
        intro c hc
        rcases List.mem_append.mp hc with h | h
        · exact (hgc c h).2
        · have h2 : c ∈ ['.', 't', 'x', 't'] := h
          simp at h2
          rcases h2 with rfl | rfl | rfl | rfl <;> decide
      case hne =>
        intro he
        have h2 := List.append_eq_nil.mp he
        exact absurd h2.2 (by decide)
    have h0 := apply_dispatch cmd [] [] ("https://gist.github.com/" ++ g ++ ".txt") []
    simp only [List.nil_append] at h0
    have h1 := transformApply_eval cmd [] [] ("https://gist.github.com/" ++ g ++ ".txt") []
      (by simp) hmatchB
    simp only [List.nil_append] at h1
    rw [h0, h1]
    simp only [humB, Option.getD_some, eq_self_iff_true, if_true, hstripB, hextB]
    rw [show (((".txt" : String) == ".txt") : Bool) = true from rfl]
    simp only [Bool.not_true, Bool.false_eq_true, if_false, hbaseB]
  · -- main-host URL: no prefix, .patch appended
    have hdataC : ("https://github.com/" ++ m).data =
        "https://github.com/".data ++ m.data := String.data_append _ _
    have humC : urlMatch ("https://github.com/" ++ m) = some false :=
      urlMatch_github_data hdataC
    have hmatchC : (urlMatch ("https://github.com/" ++ m)).isSome = true := by
      rw [humC]
      rfl
    have hhashC : '#' ∉ ("https://github.com/" ++ m).data := by
      rw [hdataC]
      intro hmem
      rcases List.mem_append.mp hmem with h | h
      · exact absurd h (by decide)
      · exact absurd (hm _ h) (by decide)
    have hstripC : stripFragment ("https://github.com/" ++ m) =
        "https://github.com/" ++ m := stripFragment_id hhashC
    have hmS : ∀ c ∈ m.data, ¬(c = '/') := fun c hc => (hmc c hc).2
    have hpullC : pullReplace ("https://github.com/" ++ m) = "https://github.com/" ++ m := by
      unfold pullReplace
      rw [hdataC, pullScan_host_clean hmS]
    have hdC : ("https://github.com/" ++ m).data =
        "https://github.com".data ++ '/' :: m.data := by
      rw [hdataC, show ("https://github.com/".data : List Char) =
        "https://github.com".data ++ ['/'] from rfl]
      simp
    have hextC : fileExt ("https://github.com/" ++ m) = "" :=
      fileExt_of_last_seg hdC hmc
    have hd4C : (("https://github.com/" ++ m) ++ ".patch").data =
        "https://github.com".data ++ '/' :: (m.data ++ ".patch".data) := by
      rw [String.data_append, hdC]
      simp
    have hbaseC : fileBase (("https://github.com/" ++ m) ++ ".patch") = m ++ ".patch" := by
      rw [fileBase_of_last_seg hd4C ?hl ?hne]
      · exact strMk_eq (String.data_append m ".patch").symm
      case hl =>
        intro c hc
        rcases List.mem_append.mp hc with h | h
        · exact (hmc c h).2
        · have h2 : c ∈ ['.', 'p', 'a', 't', 'c', 'h'] := h
          simp at h2
          rcases h2 with rfl | rfl | rfl | rfl | rfl | rfl <;> decide
      case hne =>
        intro he
        have h2 := List.append_eq_nil.mp he
        exact absurd h2.2 (by decide)
    have h0 := apply_dispatch cmd [] [] ("https://github.com/" ++ m) []
    simp only [List.nil_append] at h0
    have h1 := transformApply_eval cmd [] [] ("https://github.com/" ++ m) []
      (by simp) hmatchC
    simp only [List.nil_append] at h1
    rw [h0, h1]
    simp only [humC, Option.getD_some, Bool.false_eq_true, if_false, hstripC, hpullC, hextC]
    rw [show ((("" : String) == ".patch") : Bool) = false from rfl]
    simp only [Bool.not_false, if_true, hbaseC]
    rw [String.append_empty]

/-- Witness for claim C9 at concrete gist and main-host invocations. -/
theorem c9_gist_naming_w :
    (Hub.apply ⟨"am", ["https://gist.github.com/" ++ "abc123"], []⟩ =
      ⟨"am", [tempDir ++ "/" ++ "gist-" ++ ("abc123" ++ ".txt")],
        [⟨"curl", ["-#LA", "gh " ++ version,
          ("https://gist.github.com/" ++ "abc123") ++ ".txt", "-o",
          tempDir ++ "/" ++ "gist-" ++ ("abc123" ++ ".txt")]⟩]⟩) ∧
    (Hub.apply ⟨"am", ["https://gist.github.com/" ++ "abc123" ++ ".txt"], []⟩ =
      ⟨"am", [tempDir ++ "/" ++ "gist-" ++ ("abc123" ++ ".txt")],
        [⟨"curl", ["-#LA", "gh " ++ version,
          "https://gist.github.com/" ++ "abc123" ++ ".txt", "-o",
          tempDir ++ "/" ++ "gist-" ++ ("abc123" ++ ".txt")]⟩]⟩) ∧
    (Hub.apply ⟨"am", ["https://github.com/" ++ "app"], []⟩ =
      ⟨"am", [tempDir ++ "/" ++ ("app" ++ ".patch")],
        [⟨"curl", ["-#LA", "gh " ++ version,
          ("https://github.com/" ++ "app") ++ ".patch", "-o",
          tempDir ++ "/" ++ ("app" ++ ".patch")]⟩]⟩) :=
  c9_gist_naming "am" "abc123" "app" (by decide) (by decide)
